import Mathlib

/-!
# kaguya `LuaRef` (include/kaguya/lua_ref.hpp)

A shallow embedding of the `LuaRef` handle of kaguya and of the part of the Lua C API
it calls.  The interpreter is an explicit state `LuaState` (operand stack, registry,
table heap) and every member function of `LuaRef` is a function on that state.

Scope of the interpreter model: a number is an exact integer or NaN, the one value
that is not equal to itself; tables have no metatable
and a userdata has at most a table as `__index`, so the native comparisons and table
accesses run no Lua code; one interpreter exists, and a `lua_State*` is either null or
that interpreter.
-/

namespace Kaguya

/-! ## Lua values and the interpreter state -/

/-- Lua values.  Tables, functions, userdata and threads are heap objects named by an
id.  `nan` is the number NaN (`0.0/0.0`); every other number is `number n`. -/
inductive LuaValue where
  | nil
  | boolean (b : Bool)
  | lightuserdata (p : Nat)
  | number (n : Int)
  | nan
  | string (s : String)
  | table (id : Nat)
  | function (id : Nat)
  | userdata (id : Nat)
  | thread (id : Nat)
  deriving DecidableEq, Repr

def LUA_TNONE : Int := -1
def LUA_TNIL : Int := 0
def LUA_TBOOLEAN : Int := 1
def LUA_TLIGHTUSERDATA : Int := 2
def LUA_TNUMBER : Int := 3
def LUA_TSTRING : Int := 4
def LUA_TTABLE : Int := 5
def LUA_TFUNCTION : Int := 6
def LUA_TUSERDATA : Int := 7
def LUA_TTHREAD : Int := 8

def LUA_REFNIL : Int := -1

/-- The type tag of a value (`ttype`). -/
def LuaValue.ttype : LuaValue → Int
  | .nil => LUA_TNIL
  | .boolean _ => LUA_TBOOLEAN
  | .lightuserdata _ => LUA_TLIGHTUSERDATA
  | .number _ => LUA_TNUMBER
  | .nan => LUA_TNUMBER
  | .string _ => LUA_TSTRING
  | .table _ => LUA_TTABLE
  | .function _ => LUA_TFUNCTION
  | .userdata _ => LUA_TUSERDATA
  | .thread _ => LUA_TTHREAD

/-- One interpreter instance.
* `stack`: the operand stack, top of the stack first.
* `slots`: the integer-keyed part of the registry table (`nil` when absent).
* `free`: the free list kept by `luaL_ref`/`luaL_unref`, most recently released first.
* `rlen`: the length of the registry's array part (highest slot handed out).
* `tables`: the entries of every table, in the order `lua_next` enumerates them.
* `uindex`: for a userdata, the table its metatable gives as `__index`, if any. -/
structure LuaState where
  stack : List LuaValue
  slots : Int → LuaValue
  free : List Int
  rlen : Int
  tables : Nat → List (LuaValue × LuaValue)
  uindex : Nat → Option Nat

/-- A `lua_State*` held by the host: the null pointer or the interpreter. -/
inductive StatePtr where
  | null
  | main
  deriving DecidableEq, Repr

/-- Ways an operation leaves defined behaviour. -/
inductive Fault where
  | null_state
  | assert_failed
  | api_misuse
  deriving DecidableEq, Repr

/-- How a member function ends.
* `ret a L`: it returns `a`, the interpreter being `L`.
* `thrown L`: the exception `lua_type_mismatch` reaches the caller, the interpreter being `L`.
* `lua_error`: the interpreter raised an error (`lua_error`) inside an API call.
* `fault f`: null `lua_State*`, failed `assert`, or violated API precondition.
* `no_fuel`: the loop bound of the model was reached. -/
inductive Outcome (α : Type) where
  | ret (a : α) (L : LuaState)
  | thrown (L : LuaState)
  | lua_error
  | fault (f : Fault)
  | no_fuel

/-! ## The Lua C API used by `LuaRef` -/

def lua_gettop (L : LuaState) : Nat := L.stack.length

/-- The API `lua_settop` for a non-negative index: pops, or fills with `nil`. -/
def lua_settop (L : LuaState) (n : Nat) : LuaState :=
  if n ≤ L.stack.length then
    { L with stack := L.stack.drop (L.stack.length - n) }
  else
    { L with stack := List.replicate (n - L.stack.length) LuaValue.nil ++ L.stack }

/-- Push one value (`setobj2s` then `api_incr_top`). -/
def pushvalue (L : LuaState) (v : LuaValue) : LuaState :=
  { L with stack := v :: L.stack }

/-- The value at an acceptable stack index: positive counts from the bottom,
negative from the top; anything else is not a stack slot. -/
def index2value (L : LuaState) (idx : Int) : Option LuaValue :=
  if 0 < idx then
    (if idx.toNat ≤ L.stack.length then L.stack[L.stack.length - idx.toNat]? else none)
  else if idx < 0 then L.stack[(-idx).toNat - 1]?
  else none

def lua_pushnil (L : LuaState) : LuaState := pushvalue L LuaValue.nil

def lua_pushvalue (L : LuaState) (idx : Int) : LuaState :=
  pushvalue L ((index2value L idx).getD LuaValue.nil)

def lua_type (L : LuaState) (idx : Int) : Int :=
  match index2value L idx with
  | none => LUA_TNONE
  | some v => v.ttype

/-- The call `lua_rawgeti(L, LUA_REGISTRYINDEX, n)`. -/
def lua_rawgeti (L : LuaState) (n : Int) : LuaState := pushvalue L (L.slots n)

/-- The call `luaL_ref(L, LUA_REGISTRYINDEX)`: pops the top value; `nil` gets the
fixed reference `LUA_REFNIL`, any other value is stored in the first slot of the free
list or, when that list is empty, in a new slot past the end.  (An empty stack, which
no caller in `LuaRef` has, is read as `nil`.) -/
def luaL_ref (L : LuaState) : Int × LuaState :=
  match L.stack with
  | [] => (LUA_REFNIL, L)
  | v :: st =>
    if v = LuaValue.nil then (LUA_REFNIL, { L with stack := st })
    else
      match L.free with
      | f :: fs => (f, { L with stack := st, slots := Function.update L.slots f v, free := fs })
      | [] =>
        (L.rlen + 1,
          { L with stack := st, slots := Function.update L.slots (L.rlen + 1) v,
                   rlen := L.rlen + 1 })

/-- The call `luaL_unref(L, LUA_REGISTRYINDEX, ref)`: a non-negative `ref` is released
and put at the head of the free list.  (lauxlib threads the free list through the
released slots; here the list is kept apart and a released slot reads as `nil`.) -/
def luaL_unref (L : LuaState) (ref : Int) : LuaState :=
  if 0 ≤ ref then
    { L with slots := Function.update L.slots ref LuaValue.nil, free := ref :: L.free }
  else L

/-- Raw table lookup (`luaH_get`). -/
def luaH_get (es : List (LuaValue × LuaValue)) (k : LuaValue) : LuaValue :=
  match es.find? (fun e => decide (e.1 = k)) with
  | some e => e.2
  | none => LuaValue.nil

/-- Raw table store (`luaH_set`): a `nil` value removes the key, a present key is
overwritten in place, a new key is added at the end. -/
def luaH_set (es : List (LuaValue × LuaValue)) (k v : LuaValue) : List (LuaValue × LuaValue) :=
  if v = LuaValue.nil then es.filter (fun e => !decide (e.1 = k))
  else if es.any (fun e => decide (e.1 = k)) then
    es.map (fun e => if e.1 = k then (k, v) else e)
  else es ++ [(k, v)]

/-- The pair after key `k` in enumeration order (`luaH_next` for a non-nil key):
`none` when `k` is not a key of the table, `some none` when `k` is the last key. -/
def luaH_next : List (LuaValue × LuaValue) → LuaValue → Option (Option (LuaValue × LuaValue))
  | [], _ => none
  | e :: rest, k => if e.1 = k then some rest.head? else luaH_next rest k

/-- The API `lua_gettable(L, idx)`: pops the key and pushes `t[key]`, where `t` is the
value at `idx`.  A table is read raw; a userdata is read through the table given as
`__index`; indexing anything else raises a Lua error. -/
def lua_gettable (L : LuaState) (idx : Int) : Outcome Unit :=
  match L.stack with
  | [] => Outcome.fault Fault.api_misuse
  | k :: st =>
    match index2value L idx with
    | none => Outcome.fault Fault.api_misuse
    | some (LuaValue.table id) =>
      Outcome.ret () { L with stack := luaH_get (L.tables id) k :: st }
    | some (LuaValue.userdata id) =>
      match L.uindex id with
      | some tid => Outcome.ret () { L with stack := luaH_get (L.tables tid) k :: st }
      | none => Outcome.lua_error
    | some _ => Outcome.lua_error

/-- The API `lua_settable(L, idx)`: pops the value and the key and does `t[key] = value`,
where `t` is the value at `idx`.  A `nil` or NaN key, or a `t` that is not a table,
raises a Lua error. -/
def lua_settable (L : LuaState) (idx : Int) : Outcome Unit :=
  match L.stack with
  | v :: k :: st =>
    match index2value L idx with
    | none => Outcome.fault Fault.api_misuse
    | some (LuaValue.table id) =>
      if k = LuaValue.nil ∨ k = LuaValue.nan then Outcome.lua_error
      else
        Outcome.ret ()
          { L with stack := st,
                   tables := Function.update L.tables id (luaH_set (L.tables id) k v) }
    | some _ => Outcome.lua_error
  | _ => Outcome.fault Fault.api_misuse

/-- The API `lua_next(L, idx)`: pops a key and pushes the next key-value pair of the
table at `idx` (returning nonzero), or pushes nothing at the end (returning 0).  The
value at `idx` must be a table; a key that is not in the table raises a Lua error. -/
def lua_next (L : LuaState) (idx : Int) : Outcome Bool :=
  match L.stack with
  | [] => Outcome.fault Fault.api_misuse
  | k :: st =>
    match index2value L idx with
    | some (LuaValue.table id) =>
      if k = LuaValue.nil then
        match (L.tables id).head? with
        | some e => Outcome.ret true { L with stack := e.2 :: e.1 :: st }
        | none => Outcome.ret false { L with stack := st }
      else
        match luaH_next (L.tables id) k with
        | none => Outcome.lua_error
        | some (some e) => Outcome.ret true { L with stack := e.2 :: e.1 :: st }
        | some none => Outcome.ret false { L with stack := st }
    | _ => Outcome.fault Fault.api_misuse

/-- Comparison operators of `lua_compare`. -/
inductive CompareOp where
  | LUA_OPEQ
  | LUA_OPLT
  | LUA_OPLE
  deriving DecidableEq, Repr

/-- Primitive equality of two values (`luaV_equalobj` without metamethods): NaN is
equal to nothing, itself included; any other two values are equal when they are the
same value. -/
def luaV_equalobj (a b : LuaValue) : Bool :=
  if a = LuaValue.nan ∨ b = LuaValue.nan then false else decide (a = b)

/-- Native `<`: numbers by value (false when either is NaN), strings in string order,
anything else is an order error (`none`). -/
def luaV_lessthan : LuaValue → LuaValue → Option Bool
  | .number a, .number b => some (decide (a < b))
  | .number _, .nan => some false
  | .nan, .number _ => some false
  | .nan, .nan => some false
  | .string a, .string b => some (decide (a < b))
  | _, _ => none

/-- Native `<=`: numbers by value (false when either is NaN), strings in string order,
anything else is an order error (`none`). -/
def luaV_lessequal : LuaValue → LuaValue → Option Bool
  | .number a, .number b => some (decide (a ≤ b))
  | .number _, .nan => some false
  | .nan, .number _ => some false
  | .nan, .nan => some false
  | .string a, .string b => some (decide (a ≤ b))
  | _, _ => none

/-- The native comparison of two values; `none` is a raised Lua error. -/
def luaV_compare (op : CompareOp) (a b : LuaValue) : Option Bool :=
  match op with
  | .LUA_OPEQ => some (luaV_equalobj a b)
  | .LUA_OPLT => luaV_lessthan a b
  | .LUA_OPLE => luaV_lessequal a b

/-- The API `lua_compare(L, index1, index2, op)`: compares the value at `index1` with
the value at `index2`; 0 when either index is not valid. -/
def lua_compare (L : LuaState) (index1 index2 : Int) (op : CompareOp) : Option Bool :=
  match index2value L index1, index2value L index2 with
  | some a, some b => luaV_compare op a b
  | _, _ => some false

/-! ## Collaborators of `LuaRef` declared in other headers -/

/-- Run `d` on the interpreter when control leaves a scope, by return or by exception. -/
def Outcome.finally {α : Type} (o : Outcome α) (d : LuaState → LuaState) : Outcome α :=
  match o with
  | .ret a L => .ret a (d L)
  | .thrown L => .thrown (d L)
  | .lua_error => .lua_error
  | .fault f => .fault f
  | .no_fuel => .no_fuel

/-- Sequencing: run `f` on the returned value; every other ending is passed on. -/
def Outcome.bind {α β : Type} (o : Outcome α) (f : α → LuaState → Outcome β) : Outcome β :=
  match o with
  | .ret a L => f a L
  | .thrown L => .thrown L
  | .lua_error => .lua_error
  | .fault e => .fault e
  | .no_fuel => .no_fuel

/-- Modelled from the spec: `utils::ScopedSavedStack` (kaguya/utils.hpp is not among the
sources).  Construction records the depth of the operand stack (`saved`); destruction, on
normal exit or on a failure in flight, sets the stack back to exactly that depth. -/
def ScopedSavedStack {α : Type} (saved : Nat) (body : Outcome α) : Outcome α :=
  body.finally (fun L => lua_settop L saved)

/-- Modelled from the spec: the Type Conversion Protocol for a host type `T`
(`types::check_type` and `types::get` of kaguya/type.hpp, which is not among the
sources): `check_type(stack index) -> bool` and `get(stack index) -> value`. -/
structure TypeTag (T : Type) where
  check_type : LuaState → Int → Bool
  get : LuaState → Int → T × LuaState

/-- Modelled from the spec: `types::push` of kaguya/type.hpp for an `int`; one number
is pushed. -/
def types.push_int (L : LuaState) (i : Int) : LuaState := pushvalue L (LuaValue.number i)

/-- Modelled from the spec: `types::push` of kaguya/type.hpp for a C string; one string
is pushed. -/
def types.push_cstr (L : LuaState) (s : String) : LuaState := pushvalue L (LuaValue.string s)

/-- Names of the type tags (`lua_typename`). -/
def lua_typename (t : Int) : String :=
  if t = LUA_TNIL then "nil"
  else if t = LUA_TBOOLEAN then "boolean"
  else if t = LUA_TLIGHTUSERDATA then "userdata"
  else if t = LUA_TNUMBER then "number"
  else if t = LUA_TSTRING then "string"
  else if t = LUA_TTABLE then "table"
  else if t = LUA_TFUNCTION then "function"
  else if t = LUA_TUSERDATA then "userdata"
  else if t = LUA_TTHREAD then "thread"
  else "no value"

/-! ## `class LuaRef` -/

/-- The data members of `LuaRef`: `lua_State *state_; int ref_;`. -/
structure LuaRef where
  state_ : StatePtr
  ref_ : Int
  deriving DecidableEq, Repr

namespace LuaRef

/-- `LuaRef() :state_(0), ref_(LUA_REFNIL) {}` -/
def mk_default : LuaRef := ⟨StatePtr.null, LUA_REFNIL⟩

/-- `LuaRef(lua_State* state) :state_(state), ref_(LUA_REFNIL) {}` -/
def mk_state (state : StatePtr) : LuaRef := ⟨state, LUA_REFNIL⟩

/-- `bool is_nilref()const { return state_ == 0 || ref_ == LUA_REFNIL; }` -/
def is_nilref (r : LuaRef) : Bool :=
  decide (r.state_ = StatePtr.null) || decide (r.ref_ = LUA_REFNIL)

/-- `void unref()`; the first component is the object afterwards. -/
def unref (r : LuaRef) (L : LuaState) : LuaRef × LuaState :=
  if !r.is_nilref then
    (⟨StatePtr.null, LUA_REFNIL⟩, luaL_unref L r.ref_)
  else (r, L)

/-- `~LuaRef() { unref(); }`: the interpreter after the object is gone. -/
def destroy (r : LuaRef) (L : LuaState) : LuaState := (r.unref L).2

/-- `void push()const`: `lua_rawgeti(state_, LUA_REGISTRYINDEX, ref_)`. -/
def push (r : LuaRef) (L : LuaState) : Except Fault LuaState :=
  match r.state_ with
  | .null => .error Fault.null_state
  | .main => .ok (lua_rawgeti L r.ref_)

/-- `void push(lua_State* state)const`, with its `assert(state == state_)`. -/
def push_state (r : LuaRef) (state : StatePtr) (L : LuaState) : Except Fault LuaState :=
  if state = r.state_ then r.push L else .error Fault.assert_failed

/-- `LuaRef(lua_State* state, StackTop)`, for a non-null `state`. -/
def fromStackTop (state : StatePtr) (L : LuaState) : LuaRef × LuaState :=
  ((⟨state, (luaL_ref L).1⟩ : LuaRef), (luaL_ref L).2)

/-- `LuaRef(const LuaRef& src)`.  `src.push()` runs only when `src.state_` is not null. -/
def copy (src : LuaRef) (L : LuaState) : LuaRef × LuaState :=
  if !src.is_nilref then
    ((⟨src.state_, (luaL_ref (lua_rawgeti L src.ref_)).1⟩ : LuaRef),
      (luaL_ref (lua_rawgeti L src.ref_)).2)
  else ((⟨src.state_, LUA_REFNIL⟩ : LuaRef), L)

/-- `LuaRef& operator =(const LuaRef& src)` when `*this` and `src` are different
objects; the first component is `*this` afterwards. -/
def assign (this src : LuaRef) (L : LuaState) : LuaRef × LuaState :=
  let L1 := (this.unref L).2
  if !src.is_nilref then
    ((⟨src.state_, (luaL_ref (lua_rawgeti L1 src.ref_)).1⟩ : LuaRef),
      (luaL_ref (lua_rawgeti L1 src.ref_)).2)
  else ((⟨src.state_, LUA_REFNIL⟩ : LuaRef), L1)

/-- `LuaRef& operator =(const LuaRef& src)` on host memory: `objs` gives the `LuaRef`
object at each address, `this` and `src` are addresses and may be the same one.  Each
statement reads the objects as the statements before it left them. -/
def operator_assign (objs : Nat → LuaRef) (this src : Nat) (L : LuaState) :
    (Nat → LuaRef) × LuaState :=
  let objs1 := Function.update objs this ((objs this).unref L).1
  let L1 := ((objs this).unref L).2
  let objs2 := Function.update objs1 this ⟨(objs1 src).state_, (objs1 this).ref_⟩
  if !(objs2 src).is_nilref then
    (Function.update objs2 this
        ⟨(objs2 this).state_, (luaL_ref (lua_rawgeti L1 (objs2 src).ref_)).1⟩,
      (luaL_ref (lua_rawgeti L1 (objs2 src).ref_)).2)
  else (Function.update objs2 this ⟨(objs2 this).state_, LUA_REFNIL⟩, L1)

/-- `void swap(LuaRef& other)`: (`*this` afterwards, `other` afterwards). -/
def swap (this other : LuaRef) : LuaRef × LuaRef :=
  (⟨other.state_, other.ref_⟩, ⟨this.state_, this.ref_⟩)

/-- `LuaRef(LuaRef&& src)`: (the new object, `src` afterwards). -/
def move_construct (src : LuaRef) : LuaRef × LuaRef :=
  swap ⟨StatePtr.null, LUA_REFNIL⟩ src

/-- `LuaRef& operator =(LuaRef&& src)`: (`*this` afterwards, `src` afterwards). -/
def move_assign (this src : LuaRef) : LuaRef × LuaRef :=
  swap this src

/-- `enum value_type type() const` -/
def type (r : LuaRef) (L : LuaState) : Outcome Int :=
  if r.ref_ = LUA_REFNIL then Outcome.ret LUA_TNIL L
  else
    match r.state_ with
    | .null => Outcome.fault Fault.null_state
    | .main =>
      ScopedSavedStack (lua_gettop L)
        (Outcome.ret (lua_type (lua_rawgeti L r.ref_) (-1)) (lua_rawgeti L r.ref_))

/-- `std::string typeName()const` -/
def typeName (r : LuaRef) (L : LuaState) : Outcome String :=
  (r.type L).bind (fun t L1 => Outcome.ret (lua_typename t) L1)

/-- `template<typename T> T get()const` -/
def get {T : Type} (tag : TypeTag T) (r : LuaRef) (L : LuaState) : Outcome T :=
  if r.state_ = StatePtr.null ∨ r.ref_ = LUA_REFNIL then Outcome.thrown L
  else
    ScopedSavedStack (lua_gettop L)
      (if !tag.check_type (lua_rawgeti L r.ref_) (-1) then
        (r.typeName (lua_rawgeti L r.ref_)).bind (fun _ L2 => Outcome.thrown L2)
      else
        Outcome.ret (tag.get (lua_rawgeti L r.ref_) (-1)).1 (tag.get (lua_rawgeti L r.ref_) (-1)).2)

/-- The common body of `operator==`, `operator<` and `operator<=` on two `LuaRef`s. -/
def compare_with (op : CompareOp) (this other : LuaRef) (L : LuaState) : Outcome Bool :=
  match this.state_ with
  | .null => Outcome.fault Fault.null_state
  | .main =>
    ScopedSavedStack (lua_gettop L)
      (match other.push_state this.state_ L with
      | .error f => Outcome.fault f
      | .ok L1 =>
        match this.push L1 with
        | .error f => Outcome.fault f
        | .ok L2 =>
          match lua_compare L2 (-1) (-2) op with
          | some b => Outcome.ret b L2
          | none => Outcome.lua_error)

/-- `bool operator==(const LuaRef& other)const` -/
def operator_eq (this other : LuaRef) (L : LuaState) : Outcome Bool :=
  compare_with CompareOp.LUA_OPEQ this other L

/-- `bool operator<(const LuaRef& other)const` -/
def operator_lt (this other : LuaRef) (L : LuaState) : Outcome Bool :=
  compare_with CompareOp.LUA_OPLT this other L

/-- `bool operator<=(const LuaRef& other)const` -/
def operator_le (this other : LuaRef) (L : LuaState) : Outcome Bool :=
  compare_with CompareOp.LUA_OPLE this other L

/-- `bool operator>=(const LuaRef& other)const { return other <= *this; }` -/
def operator_ge (this other : LuaRef) (L : LuaState) : Outcome Bool :=
  operator_le other this L

/-- `bool operator>(const LuaRef& other)const { return other < *this; }` -/
def operator_gt (this other : LuaRef) (L : LuaState) : Outcome Bool :=
  operator_lt other this L

/-- `bool operator!=(const LuaRef& other)const { return !(other == *this); }` -/
def operator_ne (this other : LuaRef) (L : LuaState) : Outcome Bool :=
  (operator_eq other this L).bind (fun b L1 => Outcome.ret (!b) L1)

/-- `template<typename T> bool operator == (const T v)const { return get<T>() == v; }` -/
def operator_eq_value {T : Type} [DecidableEq T] (tag : TypeTag T) (r : LuaRef) (v : T)
    (L : LuaState) : Outcome Bool :=
  (r.get tag L).bind (fun x L1 => Outcome.ret (decide (x = v)) L1)

/-- `template<typename T> bool operator != (const T v)const { return !((*this) == v); }` -/
def operator_ne_value {T : Type} [DecidableEq T] (tag : TypeTag T) (r : LuaRef) (v : T)
    (L : LuaState) : Outcome Bool :=
  (r.operator_eq_value tag v L).bind (fun b L1 => Outcome.ret (!b) L1)

/-! ### Field access -/

/-- The common body of the three `getField` overloads; `pushkey` is the statement that
pushes the key (`key.push(state_)` or `types::push(state_, key)`). -/
def getField_with (pushkey : LuaState → Except Fault LuaState) (r : LuaRef) (L : LuaState) :
    Outcome LuaRef :=
  if r.ref_ = LUA_REFNIL then Outcome.ret mk_default L
  else
    match r.state_ with
    | .null => Outcome.fault Fault.null_state
    | .main =>
      ScopedSavedStack (lua_gettop L)
        (if lua_type (lua_rawgeti L r.ref_) (-1) ≠ LUA_TTABLE
            ∧ lua_type (lua_rawgeti L r.ref_) (-1) ≠ LUA_TUSERDATA then
          Outcome.ret mk_default (lua_rawgeti L r.ref_)
        else
          match pushkey (lua_rawgeti L r.ref_) with
          | .error f => Outcome.fault f
          | .ok L2 =>
            (lua_gettable L2 (-2)).bind
              (fun _ L3 => Outcome.ret (fromStackTop r.state_ L3).1 (fromStackTop r.state_ L3).2))

/-- `LuaRef getField(const LuaRef& key)const` -/
def getField (r key : LuaRef) (L : LuaState) : Outcome LuaRef :=
  getField_with (fun L1 => key.push_state r.state_ L1) r L

/-- `LuaRef getField(const char* str)const` -/
def getField_cstr (r : LuaRef) (str : String) (L : LuaState) : Outcome LuaRef :=
  getField_with (fun L1 => .ok (types.push_cstr L1 str)) r L

/-- `LuaRef getField(const std::string& str)const { return getField(str.c_str()); }` -/
def getField_string (r : LuaRef) (str : String) (L : LuaState) : Outcome LuaRef :=
  getField_cstr r str L

/-- `LuaRef getField(int index)const` -/
def getField_int (r : LuaRef) (index : Int) (L : LuaState) : Outcome LuaRef :=
  getField_with (fun L1 => .ok (types.push_int L1 index)) r L

end LuaRef

/-- A host value given to `setField` as key or value: an `int`, a string, or a `LuaRef`. -/
inductive HostValue where
  | int (i : Int)
  | cstr (s : String)
  | ref (r : LuaRef)
  deriving DecidableEq, Repr

/-- The call `types::push(state, v)`: the `LuaRef` overload is the one at the end of
lua_ref.hpp (`ref.push(l)`), the other two are the protocol's. -/
def types.push (state : StatePtr) (L : LuaState) : HostValue → Except Fault LuaState
  | .int i => .ok (types.push_int L i)
  | .cstr s => .ok (types.push_cstr L s)
  | .ref r => r.push_state state L

/-- Passing a host value by value: a `LuaRef` is copy-constructed. -/
def HostValue.copy : HostValue → LuaState → HostValue × LuaState
  | .int i, L => (.int i, L)
  | .cstr s, L => (.cstr s, L)
  | .ref r, L => (.ref (r.copy L).1, (r.copy L).2)

/-- End of life of a by-value parameter: a `LuaRef` is destroyed. -/
def HostValue.destroy : HostValue → LuaState → LuaState
  | .int _, L => L
  | .cstr _, L => L
  | .ref r, L => r.destroy L

namespace LuaRef

/-- The statements of `setFieldImpl(K key, V value)`, run on its parameters. -/
def setFieldImpl_body (r : LuaRef) (key value : HostValue) (L : LuaState) : Outcome Unit :=
  if r.ref_ = LUA_REFNIL then Outcome.ret () L
  else
    match r.state_ with
    | .null => Outcome.fault Fault.null_state
    | .main =>
      ScopedSavedStack (lua_gettop L)
        (if lua_type (lua_rawgeti L r.ref_) (-1) ≠ LUA_TTABLE then
          Outcome.ret () (lua_rawgeti L r.ref_)
        else
          match types.push r.state_ (lua_rawgeti L r.ref_) key with
          | .error f => Outcome.fault f
          | .ok L2 =>
            match types.push r.state_ L2 value with
            | .error f => Outcome.fault f
            | .ok L3 => lua_settable L3 (-3))

/-- `template<typename K, typename V> void setFieldImpl(K key, V value)`: both
parameters are taken by value, so they are copied on entry and destroyed on exit.  The
order is the compiler's choice; here the key is copied first and destroyed last. -/
def setFieldImpl (r : LuaRef) (key value : HostValue) (L : LuaState) : Outcome Unit :=
  (setFieldImpl_body r (key.copy L).1 (value.copy (key.copy L).2).1
      (value.copy (key.copy L).2).2).finally
    (fun L1 => (key.copy L).1.destroy ((value.copy (key.copy L).2).1.destroy L1))

/-- `template<typename T> void setField(int key, T value)`; `value` is a by-value
parameter of `setField` itself. -/
def setField_int (r : LuaRef) (key : Int) (value : HostValue) (L : LuaState) : Outcome Unit :=
  (setFieldImpl r (.int key) (value.copy L).1 (value.copy L).2).finally
    (fun L1 => (value.copy L).1.destroy L1)

/-- `template<typename T> void setField(const char* key, T value)` -/
def setField_cstr (r : LuaRef) (key : String) (value : HostValue) (L : LuaState) :
    Outcome Unit :=
  (setFieldImpl r (.cstr key) (value.copy L).1 (value.copy L).2).finally
    (fun L1 => (value.copy L).1.destroy L1)

/-- `template<typename T> void setField(const std::string& key, T value)`, which
calls `setField(key.c_str(), value)`. -/
def setField_string (r : LuaRef) (key : String) (value : HostValue) (L : LuaState) :
    Outcome Unit :=
  (setField_cstr r key (value.copy L).1 (value.copy L).2).finally
    (fun L1 => (value.copy L).1.destroy L1)

/-- `template<typename T> void setField(const LuaRef& key, T value)` -/
def setField (r key : LuaRef) (value : HostValue) (L : LuaState) : Outcome Unit :=
  (setFieldImpl r (.ref key) (value.copy L).1 (value.copy L).2).finally
    (fun L1 => (value.copy L).1.destroy L1)

/-! ### Table iteration -/

/-- The `while (lua_next(state_, top) != 0)` loop of `foreach_table`, at most `fuel`
tests of the condition.  `f acc key value` is the call `f(key, value)`, `acc` being
what the visitor has collected so far; at the end of the body the locals `key` and
`value` are destroyed, in that order. -/
def foreach_loop {σ : Type} (f : σ → LuaRef → LuaRef → LuaState → Outcome σ)
    (state : StatePtr) (top : Nat) : Nat → σ → LuaState → Outcome σ
  | 0, _, _ => Outcome.no_fuel
  | fuel + 1, acc, L =>
    (lua_next L top).bind (fun more L1 =>
      if more then
        let value := fromStackTop state L1
        let key := fromStackTop state (lua_pushvalue value.2 (-1))
        match f acc key.1 value.1 key.2 with
        | .ret acc1 L5 =>
          foreach_loop f state top fuel acc1 (value.1.destroy (key.1.destroy L5))
        | .thrown L5 => Outcome.thrown (value.1.destroy (key.1.destroy L5))
        | .lua_error => Outcome.lua_error
        | .fault e => Outcome.fault e
        | .no_fuel => Outcome.no_fuel
      else Outcome.ret acc L1)

/-- `template<class Fun>void foreach_table(Fun f)const`; the result is what the
visitor has collected when the traversal ends. -/
def foreach_table {σ : Type} (fuel : Nat) (f : σ → LuaRef → LuaRef → LuaState → Outcome σ)
    (acc : σ) (r : LuaRef) (L : LuaState) : Outcome σ :=
  if r.ref_ = LUA_REFNIL then Outcome.ret acc L
  else
    match r.state_ with
    | .null => Outcome.fault Fault.null_state
    | .main =>
      ScopedSavedStack (lua_gettop L)
        (if lua_type (lua_rawgeti L r.ref_) (-1) ≠ LUA_TTABLE
            ∧ lua_type (lua_rawgeti L r.ref_) (-1) ≠ LUA_TUSERDATA then
          Outcome.ret acc (lua_rawgeti L r.ref_)
        else
          foreach_loop f r.state_ (lua_gettop (lua_rawgeti L r.ref_)) fuel acc
            (lua_pushnil (lua_rawgeti L r.ref_)))

/-- A visitor `void operator ()(LuaRef key, LuaRef value)` whose parameters are taken
by value: `key` and `value` are copy-constructed for the call and the copies are
destroyed after it.  The order is the compiler's choice; here the key is copied first
and destroyed last. -/
def by_value {σ : Type} (body : σ → LuaRef → LuaRef → LuaState → Outcome σ)
    (acc : σ) (key value : LuaRef) (L : LuaState) : Outcome σ :=
  (body acc (key.copy L).1 (value.copy (key.copy L).2).1 (value.copy (key.copy L).2).2).finally
    (fun L1 => (key.copy L).1.destroy ((value.copy (key.copy L).2).1.destroy L1))

/-- The body of `gettablekey::operator()`: `v_.push_back(key)`; the vector stores a
copy of `key` at its end. -/
def gettablekey (v_ : List LuaRef) (key _value : LuaRef) (L : LuaState) :
    Outcome (List LuaRef) :=
  Outcome.ret (v_ ++ [(key.copy L).1]) (key.copy L).2

/-- The body of `gettablevalue::operator()`: `v_.push_back(value)`. -/
def gettablevalue (v_ : List LuaRef) (_key value : LuaRef) (L : LuaState) :
    Outcome (List LuaRef) :=
  Outcome.ret (v_ ++ [(value.copy L).1]) (value.copy L).2

/-- The statement `m_[key] = value` on a `std::map<LuaRef, LuaRef>`, the map being the
list of its nodes in key order.  The node is searched with `operator<` from the front:
the first node whose key is not less than `key` is the position; if `key` is less than
that node's key (or no such node exists) a node with a copy of `key` and a default
`LuaRef` is inserted there; then `value` is copy-assigned to the node's mapped value. -/
def map_subscript_assign :
    List (LuaRef × LuaRef) → LuaRef → LuaRef → LuaState → Outcome (List (LuaRef × LuaRef))
  | [], key, value, L =>
    Outcome.ret [((key.copy L).1, (assign mk_default value (key.copy L).2).1)]
      (assign mk_default value (key.copy L).2).2
  | n :: rest, key, value, L =>
    (operator_lt n.1 key L).bind (fun lt L1 =>
      if lt then
        (map_subscript_assign rest key value L1).bind (fun m L2 => Outcome.ret (n :: m) L2)
      else
        (operator_lt key n.1 L1).bind (fun lt2 L2 =>
          if lt2 then
            Outcome.ret (((key.copy L2).1, (assign mk_default value (key.copy L2).2).1)
                :: n :: rest)
              (assign mk_default value (key.copy L2).2).2
          else
            Outcome.ret ((n.1, (assign n.2 value L2).1) :: rest) (assign n.2 value L2).2))

/-- The body of `gettablemap::operator()`: `m_[key] = value`. -/
def gettablemap (m_ : List (LuaRef × LuaRef)) (key value : LuaRef) (L : LuaState) :
    Outcome (List (LuaRef × LuaRef)) :=
  map_subscript_assign m_ key value L

/-- `std::vector<LuaRef> keys()const` -/
def keys (fuel : Nat) (r : LuaRef) (L : LuaState) : Outcome (List LuaRef) :=
  foreach_table fuel (by_value gettablekey) [] r L

/-- `std::vector<LuaRef> values()const` -/
def values (fuel : Nat) (r : LuaRef) (L : LuaState) : Outcome (List LuaRef) :=
  foreach_table fuel (by_value gettablevalue) [] r L

/-- `std::map<LuaRef, LuaRef> map()const` -/
def map (fuel : Nat) (r : LuaRef) (L : LuaState) : Outcome (List (LuaRef × LuaRef)) :=
  foreach_table fuel (by_value gettablemap) [] r L

end LuaRef

/-- The specialisation `types::check_type`/`types::get` for `LuaRef` at the end of
lua_ref.hpp: every value passes, and `get` adopts a copy of the value at `index`. -/
def types.type_tag_LuaRef : TypeTag LuaRef where
  check_type := fun _ _ => true
  get := fun L index => LuaRef.fromStackTop StatePtr.main (lua_pushvalue L index)

/-! ## Invariants and example states -/

/-- The registry invariant kept by `luaL_ref` and `luaL_unref`: the free list has no
duplicates, every slot on it is a cleared slot inside the array part, and every slot
holding a value is inside the array part. -/
structure RegistryWF (L : LuaState) : Prop where
  free_nodup : L.free.Nodup
  free_nil : ∀ k ∈ L.free, 0 < k ∧ k ≤ L.rlen ∧ L.slots k = LuaValue.nil
  live_range : ∀ k, L.slots k ≠ LuaValue.nil → 0 < k ∧ k ≤ L.rlen
  rlen_nonneg : 0 ≤ L.rlen

/-- The value a `LuaRef` denotes: what `push()` would put on the stack. -/
def LuaRef.value (L : LuaState) (r : LuaRef) : LuaValue := L.slots r.ref_

/-- A `LuaRef` that owns a registry slot of the interpreter: its handle is the
interpreter and its slot holds a value. -/
def LuaRef.Live (L : LuaState) (r : LuaRef) : Prop :=
  r.state_ = StatePtr.main ∧ L.slots r.ref_ ≠ LuaValue.nil

/-- Every registry slot holding a value in `L` holds the same value in `L1`. -/
def Extends (L L1 : LuaState) : Prop :=
  ∀ k, L.slots k ≠ LuaValue.nil → L1.slots k = L.slots k

/-- A new interpreter: empty stack, empty registry, and one table, `{10: "x", 20: "y"}`,
with id 1. -/
def L_new : LuaState where
  stack := []
  slots := fun _ => LuaValue.nil
  free := []
  rlen := 0
  tables := fun id =>
    if id = 1 then [(LuaValue.number 10, LuaValue.string "x"),
      (LuaValue.number 20, LuaValue.string "y")] else []
  uindex := fun _ => none

/-- `LuaRef(lua_State* state, T v)` for an `int` and a non-null `state`:
`types::push(state_, v); ref_ = luaL_ref(state_, LUA_REGISTRYINDEX);`. -/
def LuaRef.from_int (i : Int) (L : LuaState) : LuaRef × LuaState :=
  LuaRef.fromStackTop StatePtr.main (types.push_int L i)

/-- Modelled from the spec: the Type Conversion Protocol for `int` (`types::check_type`
and `types::get` of kaguya/type.hpp): the check passes on a number, and `get` reads the
number without touching the stack. -/
def types.type_tag_int : TypeTag Int where
  check_type := fun L index => decide (lua_type L index = LUA_TNUMBER)
  get := fun L index =>
    (match index2value L index with
      | some (LuaValue.number n) => n
      | _ => 0, L)

/-- The interpreter after `LuaRef a(L, 3); LuaRef b(L, 5); LuaRef c(L, 5);`. -/
def L_355 : LuaState :=
  (LuaRef.from_int 5 (LuaRef.from_int 5 (LuaRef.from_int 3 L_new).2).2).2

/-- The first handle made in `L_355`, denoting 3. -/
def ref_a : LuaRef := (LuaRef.from_int 3 L_new).1

/-- The second handle made in `L_355`, denoting 5. -/
def ref_b : LuaRef := (LuaRef.from_int 5 (LuaRef.from_int 3 L_new).2).1

/-- The third handle made in `L_355`, denoting 5. -/
def ref_c : LuaRef := (LuaRef.from_int 5 (LuaRef.from_int 5 (LuaRef.from_int 3 L_new).2).2).1

/-- The two interpreters have the same stack, the same registry contents, the same
tables and the same userdata index tables (the free list may differ). -/
def SameContents (L L1 : LuaState) : Prop :=
  L1.stack = L.stack ∧ L1.slots = L.slots ∧ L1.tables = L.tables ∧ L1.uindex = L.uindex

/-- A `LuaRef` in a state a program can reach: the nil sentinel, or the owner of a slot. -/
def LuaRef.Valid (L : LuaState) (r : LuaRef) : Prop :=
  r.is_nilref = true ∨ LuaRef.Live L r

/-- A host value whose `LuaRef`, if it is one, is valid. -/
def HostValue.Valid (L : LuaState) : HostValue → Prop
  | .ref r => LuaRef.Valid L r
  | _ => True

/-- The table invariant of the interpreter: keys are unique and not nil, and no stored
value is nil. -/
def TableWF (es : List (LuaValue × LuaValue)) : Prop :=
  (es.map Prod.fst).Nodup ∧ ∀ e ∈ es, e.1 ≠ LuaValue.nil ∧ e.2 ≠ LuaValue.nil

/-- The handles in `acc` own slots of `M`, and the values they denote are `vals`, in
order. -/
def Denotes (M : LuaState) (acc : List LuaRef) (vals : List LuaValue) : Prop :=
  acc.map (LuaRef.value M) = vals ∧ ∀ c ∈ acc, LuaRef.Live M c

/-- The pair of values a node of the map denotes. -/
def deref2 (M : LuaState) (n : LuaRef × LuaRef) : LuaValue × LuaValue :=
  (n.1.value M, n.2.value M)

/-- What `m_[key] = value` does to the pairs the map denotes: the walk of
`map_subscript_assign`, with the native `<` on the values. -/
def map_insert (k v : LuaValue) : List (LuaValue × LuaValue) → List (LuaValue × LuaValue)
  | [] => [(k, v)]
  | n :: rest =>
    if luaV_lessthan n.1 k = some true then n :: map_insert k v rest
    else if luaV_lessthan k n.1 = some true then (k, v) :: n :: rest
    else (n.1, v) :: rest

/-- The pairs denoted by the map after `m_[key] = value` for every entry of `es` in turn. -/
def insert_all (es : List (LuaValue × LuaValue)) : List (LuaValue × LuaValue) :=
  es.foldl (fun m e => map_insert e.1 e.2 m) []

/-- The native `<` orders `a` and `b` strictly, one way or the other. -/
def StrictlyOrdered (a b : LuaValue) : Prop :=
  luaV_lessthan a b = some true ∨
    (luaV_lessthan a b = some false ∧ luaV_lessthan b a = some true)

/-- The nodes of the map own slots of `M` and denote the pairs `vals`, in order. -/
def DenotesMap (M : LuaState) (m : List (LuaRef × LuaRef))
    (vals : List (LuaValue × LuaValue)) : Prop :=
  m.map (deref2 M) = vals ∧ ∀ n ∈ m, LuaRef.Live M n.1 ∧ LuaRef.Live M n.2

/-- All keys are numbers, or all keys are strings. -/
def KeysComparable (es : List (LuaValue × LuaValue)) : Prop :=
  (∀ e ∈ es, ∃ n, e.1 = LuaValue.number n) ∨ (∀ e ∈ es, ∃ s, e.1 = LuaValue.string s)

/-- The interpreter after `LuaRef t(L, StackTop())` with the table `{10: "x", 20: "y"}`
on top of the stack of `L_new`. -/
def L_tab : LuaState :=
  (LuaRef.fromStackTop StatePtr.main (pushvalue L_new (LuaValue.table 1))).2

/-- The handle made in `L_tab`, denoting the table `{10: "x", 20: "y"}`. -/
def ref_t : LuaRef :=
  (LuaRef.fromStackTop StatePtr.main (pushvalue L_new (LuaValue.table 1))).1

/-- If the operation gives control back to the host, by return or by the type-mismatch
exception, the operand stack then has depth `n`. -/
def Outcome.depth_is {α : Type} (o : Outcome α) (n : Nat) : Prop :=
  match o with
  | .ret _ L => L.stack.length = n
  | .thrown L => L.stack.length = n
  | _ => True

/-- The operation does give control back to the host, by return or by the type-mismatch
exception, and the operand stack then has depth `n`. -/
def Outcome.ends_at_depth {α : Type} (o : Outcome α) (n : Nat) : Prop :=
  match o with
  | .ret _ L => L.stack.length = n
  | .thrown L => L.stack.length = n
  | _ => False

/-- The interpreter after `LuaRef n(L, StackTop())` with NaN on top of the stack of
`L_new` (as after `LuaRef n(L, 0.0/0.0)`). -/
def L_nan : LuaState :=
  (LuaRef.fromStackTop StatePtr.main (pushvalue L_new LuaValue.nan)).2

/-- The handle made in `L_nan`, denoting NaN. -/
def ref_nan : LuaRef :=
  (LuaRef.fromStackTop StatePtr.main (pushvalue L_new LuaValue.nan)).1

/-! ## Lemmas on the Lua API model -/

open LuaRef

theorem lua_settop_length (L : LuaState) (n : Nat) : (lua_settop L n).stack.length = n := by
  unfold lua_settop
  split
  · simp only [List.length_drop]; omega
  · simp only [List.length_append, List.length_replicate]; omega

theorem lua_settop_self (L : LuaState) : lua_settop L L.stack.length = L := by
  simp [lua_settop]

theorem lua_settop_restore (L : LuaState) (pre : List LuaValue) :
    lua_settop { L with stack := pre ++ L.stack } L.stack.length = L := by
  unfold lua_settop
  rw [if_pos (by simp)]
  have h : (pre ++ L.stack).length - L.stack.length = pre.length := by simp
  simp only [h, List.drop_left]

theorem lua_settop_push (L : LuaState) (v : LuaValue) :
    lua_settop (pushvalue L v) L.stack.length = L :=
  lua_settop_restore L [v]

theorem lua_settop_push2 (L : LuaState) (v w : LuaValue) :
    lua_settop (pushvalue (pushvalue L v) w) L.stack.length = L :=
  lua_settop_restore L [w, v]

theorem live_ref_pos {L : LuaState} (hwf : RegistryWF L) {r : LuaRef} (h : Live L r) :
    0 < r.ref_ := (hwf.live_range _ h.2).1

theorem live_not_nilref {L : LuaState} (hwf : RegistryWF L) {r : LuaRef} (h : Live L r) :
    r.is_nilref = false := by
  have hp := live_ref_pos hwf h
  simp [is_nilref, h.1, LUA_REFNIL]
  omega

theorem luaL_unref_wf {L : LuaState} (hwf : RegistryWF L) {k : Int}
    (hk : L.slots k ≠ LuaValue.nil) : RegistryWF (luaL_unref L k) := by
  have hr := hwf.live_range k hk
  have hnf : k ∉ L.free := fun hm => hk (hwf.free_nil k hm).2.2
  unfold luaL_unref
  rw [if_pos (le_of_lt hr.1)]
  refine ⟨?_, ?_, ?_, hwf.rlen_nonneg⟩
  · exact List.nodup_cons.mpr ⟨hnf, hwf.free_nodup⟩
  · intro j hj
    rcases List.mem_cons.mp hj with rfl | hj
    · exact ⟨hr.1, hr.2, by simp⟩
    · have := hwf.free_nil j hj
      refine ⟨this.1, this.2.1, ?_⟩
      by_cases hjk : j = k
      · subst hjk; simp
      · simp [Function.update_noteq hjk, this.2.2]
  · intro j hj
    by_cases hjk : j = k
    · subst hjk; simp at hj
    · simp [Function.update_noteq hjk] at hj
      exact hwf.live_range j hj

/-- What `luaL_ref` does to a well-formed registry when the top value is not nil. -/
theorem luaL_ref_spec {L : LuaState} (hwf : RegistryWF L) {v : LuaValue} {st : List LuaValue}
    (hs : L.stack = v :: st) (hv : v ≠ LuaValue.nil) :
    L.slots (luaL_ref L).1 = LuaValue.nil ∧ 0 < (luaL_ref L).1 ∧
    (luaL_ref L).2.slots = Function.update L.slots (luaL_ref L).1 v ∧
    (luaL_ref L).2.stack = st ∧ (luaL_ref L).2.tables = L.tables ∧
    (luaL_ref L).2.uindex = L.uindex ∧ RegistryWF (luaL_ref L).2 := by
  cases hf : L.free with
  | nil =>
    have e : luaL_ref L = (L.rlen + 1,
        { L with stack := st, slots := Function.update L.slots (L.rlen + 1) v,
                 rlen := L.rlen + 1 }) := by
      simp [luaL_ref, hs, hv, hf]
    rw [e]
    have hfresh : L.slots (L.rlen + 1) = LuaValue.nil := by
      by_contra h
      have := (hwf.live_range _ h).2
      omega
    have hpos : 0 < L.rlen + 1 := by have := hwf.rlen_nonneg; omega
    refine ⟨hfresh, hpos, rfl, rfl, rfl, rfl, ?_, ?_, ?_, ?_⟩
    · show L.free.Nodup
      exact hwf.free_nodup
    · intro j hj
      have hj' : j ∈ L.free := hj
      rw [hf] at hj'
      simp at hj'
    · intro j hj
      show 0 < j ∧ j ≤ L.rlen + 1
      by_cases hjk : j = L.rlen + 1
      · subst hjk; exact ⟨hpos, le_refl _⟩
      · have hj' : Function.update L.slots (L.rlen + 1) v j ≠ LuaValue.nil := hj
        rw [Function.update_noteq hjk] at hj'
        have := hwf.live_range j hj'
        omega
    · show 0 ≤ L.rlen + 1
      omega
  | cons f fs =>
    have e : luaL_ref L = (f,
        { L with stack := st, slots := Function.update L.slots f v, free := fs }) := by
      simp [luaL_ref, hs, hv, hf]
    rw [e]
    have hmem : f ∈ L.free := by rw [hf]; simp
    have hfn := hwf.free_nil f hmem
    have hnd := hwf.free_nodup
    rw [hf] at hnd
    have hnd' := List.nodup_cons.mp hnd
    refine ⟨hfn.2.2, hfn.1, rfl, rfl, rfl, rfl, hnd'.2, ?_, ?_, hwf.rlen_nonneg⟩
    · intro j hj
      have hj' : j ∈ fs := hj
      have hjm : j ∈ L.free := by rw [hf]; exact List.mem_cons_of_mem _ hj'
      have hjf : j ≠ f := fun h => hnd'.1 (h ▸ hj')
      have := hwf.free_nil j hjm
      refine ⟨this.1, this.2.1, ?_⟩
      show Function.update L.slots f v j = LuaValue.nil
      rw [Function.update_noteq hjf]; exact this.2.2
    · intro j hj
      show 0 < j ∧ j ≤ L.rlen
      by_cases hjk : j = f
      · subst hjk; exact ⟨hfn.1, hfn.2.1⟩
      · have hj' : Function.update L.slots f v j ≠ LuaValue.nil := hj
        rw [Function.update_noteq hjk] at hj'
        exact hwf.live_range j hj'

theorem L_new_wf : RegistryWF L_new :=
  ⟨List.nodup_nil, fun _ h => by simp [L_new] at h, fun _ h => absurd rfl h, le_refl _⟩

theorem unref_of_nilref {r : LuaRef} (h : r.is_nilref = true) (L : LuaState) :
    r.unref L = (r, L) := by
  simp [unref, h]

theorem unref_of_live {L : LuaState} (hwf : RegistryWF L) {r : LuaRef} (h : Live L r) :
    r.unref L = (⟨StatePtr.null, LUA_REFNIL⟩,
      { L with slots := Function.update L.slots r.ref_ LuaValue.nil,
               free := r.ref_ :: L.free }) := by
  have hp := live_ref_pos hwf h
  simp [unref, live_not_nilref hwf h, luaL_unref, le_of_lt hp]

theorem destroy_of_live_wf {L : LuaState} (hwf : RegistryWF L) {r : LuaRef} (h : Live L r) :
    RegistryWF (r.destroy L) := by
  have hp := live_ref_pos hwf h
  have : r.destroy L = luaL_unref L r.ref_ := by
    simp [destroy, unref, live_not_nilref hwf h]
  rw [this]
  exact luaL_unref_wf hwf h.2

theorem copy_of_nilref {r : LuaRef} (h : r.is_nilref = true) (L : LuaState) :
    r.copy L = (⟨r.state_, LUA_REFNIL⟩, L) := by
  simp [copy, h]

/-- Copy-construction from a live `LuaRef`. -/
theorem copy_of_live {L : LuaState} (hwf : RegistryWF L) {r : LuaRef} (h : Live L r) :
    (r.copy L).1.state_ = StatePtr.main ∧
    L.slots (r.copy L).1.ref_ = LuaValue.nil ∧ 0 < (r.copy L).1.ref_ ∧
    (r.copy L).2.slots = Function.update L.slots (r.copy L).1.ref_ (L.slots r.ref_) ∧
    (r.copy L).2.stack = L.stack ∧ (r.copy L).2.tables = L.tables ∧
    (r.copy L).2.uindex = L.uindex ∧ RegistryWF (r.copy L).2 := by
  have hnil := live_not_nilref hwf h
  have hwf1 : RegistryWF (lua_rawgeti L r.ref_) := ⟨hwf.1, hwf.2, hwf.3, hwf.4⟩
  have hs : (lua_rawgeti L r.ref_).stack = L.slots r.ref_ :: L.stack := rfl
  have sp := luaL_ref_spec hwf1 hs h.2
  have e : r.copy L = ((⟨r.state_, (luaL_ref (lua_rawgeti L r.ref_)).1⟩ : LuaRef),
      (luaL_ref (lua_rawgeti L r.ref_)).2) := by
    simp [copy, hnil]
  rw [e]
  exact ⟨h.1, sp.1, sp.2.1, sp.2.2.1, sp.2.2.2.1, sp.2.2.2.2.1, sp.2.2.2.2.2.1, sp.2.2.2.2.2.2⟩

@[simp] theorem pushvalue_slots (L : LuaState) (v : LuaValue) :
    (pushvalue L v).slots = L.slots := rfl

@[simp] theorem pushvalue_stack (L : LuaState) (v : LuaValue) :
    (pushvalue L v).stack = v :: L.stack := rfl

@[simp] theorem pushvalue_tables (L : LuaState) (v : LuaValue) :
    (pushvalue L v).tables = L.tables := rfl

theorem index2value_top (L : LuaState) (v : LuaValue) :
    index2value (pushvalue L v) (-1) = some v := by
  simp [index2value, pushvalue]

theorem index2value_second (L : LuaState) (v w : LuaValue) :
    index2value (pushvalue (pushvalue L v) w) (-2) = some v := by
  simp [index2value, pushvalue]

/-- The three comparisons on two handles of the interpreter: the native comparison of
(value of `a`, value of `b`), with the interpreter left as it was. -/
theorem compare_with_main (op : CompareOp) (a b : LuaRef) (L : LuaState)
    (ha : a.state_ = StatePtr.main) (hb : b.state_ = StatePtr.main) :
    compare_with op a b L =
      match luaV_compare op (L.slots a.ref_) (L.slots b.ref_) with
      | some c => Outcome.ret c L
      | none => Outcome.lua_error := by
  unfold compare_with
  rw [ha]
  simp only [push_state, hb, if_true, LuaRef.push, ha, lua_rawgeti, lua_compare,
    index2value_top, index2value_second, pushvalue_slots]
  cases luaV_compare op (L.slots a.ref_) (L.slots b.ref_) with
  | none => rfl
  | some c =>
    simp only [ScopedSavedStack, Outcome.finally, lua_gettop]
    rw [lua_settop_push2 L (L.slots b.ref_) (L.slots a.ref_)]
theorem from_int_spec {L : LuaState} (hwf : RegistryWF L) (i : Int) :
    (from_int i L).1.state_ = StatePtr.main ∧
    L.slots (from_int i L).1.ref_ = LuaValue.nil ∧
    (from_int i L).2.slots = Function.update L.slots (from_int i L).1.ref_ (LuaValue.number i) ∧
    (from_int i L).2.stack = L.stack ∧ RegistryWF (from_int i L).2 := by
  have hwf1 : RegistryWF (types.push_int L i) := ⟨hwf.1, hwf.2, hwf.3, hwf.4⟩
  have hs : (types.push_int L i).stack = LuaValue.number i :: L.stack := rfl
  have sp := luaL_ref_spec hwf1 hs (by simp)
  exact ⟨rfl, sp.1, sp.2.2.1, sp.2.2.2.1, sp.2.2.2.2.2.2⟩

theorem L_355_wf : RegistryWF L_355 :=
  (from_int_spec (from_int_spec (from_int_spec L_new_wf 3).2.2.2.2 5).2.2.2.2 5).2.2.2.2

theorem ref_a_eq : ref_a = ⟨StatePtr.main, 1⟩ := by decide
theorem ref_b_eq : ref_b = ⟨StatePtr.main, 2⟩ := by decide
theorem ref_c_eq : ref_c = ⟨StatePtr.main, 3⟩ := by decide
theorem L_355_slot1 : L_355.slots 1 = LuaValue.number 3 := by decide
theorem L_355_slot2 : L_355.slots 2 = LuaValue.number 5 := by decide
theorem L_355_slot3 : L_355.slots 3 = LuaValue.number 5 := by decide
theorem L_355_stack : L_355.stack = [] := by decide
theorem luaV_equalobj_self (a : LuaValue) :
    luaV_equalobj a a = decide (a ≠ LuaValue.nan) := by
  unfold luaV_equalobj
  by_cases hn : a = LuaValue.nan
  · simp [hn]
  · simp [hn]

/-- C9 (no double release).  Destroying or unref-ing a `LuaRef` that owns a slot clears
exactly that slot, puts it on the free list once, leaves every other slot, the stack and
the tables as they were, and leaves the object nil; on a nil `LuaRef` (default
constructed, moved from, or already released) it changes neither the object nor the
interpreter; a second release after the first changes nothing. -/
theorem no_double_release (L : LuaState) (r : LuaRef) (hwf : RegistryWF L)
    (hr : r.is_nilref = true ∨ Live L r) :
    (Live L r →
      (r.unref L).1 = mk_default ∧
      (r.unref L).2.slots r.ref_ = LuaValue.nil ∧
      (r.unref L).2.free = r.ref_ :: L.free ∧
      (∀ k, k ≠ r.ref_ → (r.unref L).2.slots k = L.slots k) ∧
      (r.unref L).2.stack = L.stack ∧ (r.unref L).2.tables = L.tables ∧
      (r.unref L).2.rlen = L.rlen ∧
      r.destroy L = (r.unref L).2) ∧
    (r.is_nilref = true → r.unref L = (r, L) ∧ r.destroy L = L) ∧
    (r.move_construct.2.unref L = (r.move_construct.2, L)) ∧
    ((r.unref L).1.unref (r.unref L).2 = r.unref L) ∧
    ((r.unref L).1.destroy (r.unref L).2 = (r.unref L).2) ∧
    RegistryWF (r.unref L).2 := by
  have hidem : (r.unref L).1.is_nilref = true := by
    unfold unref
    split
    · rfl
    · simp_all
  refine ⟨?_, ?_, ?_, ?_, ?_, ?_⟩
  · intro hl
    rw [unref_of_live hwf hl]
    refine ⟨rfl, ?_, rfl, ?_, rfl, rfl, rfl, ?_⟩
    · simp
    · intro k hk
      simp [Function.update_noteq hk]
    · simp [destroy, unref_of_live hwf hl]
  · intro hn
    simp [destroy, unref_of_nilref hn]
  · rfl
  · exact Prod.ext (by rw [unref_of_nilref hidem]) (by rw [unref_of_nilref hidem])
  · simp [destroy, unref_of_nilref hidem]
  · rcases hr with hn | hl
    · rw [unref_of_nilref hn]; exact hwf
    · exact destroy_of_live_wf hwf hl

theorem no_double_release_witness :
    ((ref_a.unref L_355).1 = mk_default ∧
      (ref_a.unref L_355).2.slots ref_a.ref_ = LuaValue.nil ∧
      (ref_a.unref L_355).2.free = ref_a.ref_ :: L_355.free ∧
      (∀ k, k ≠ ref_a.ref_ → (ref_a.unref L_355).2.slots k = L_355.slots k) ∧
      (ref_a.unref L_355).2.stack = L_355.stack ∧
      (ref_a.unref L_355).2.tables = L_355.tables ∧
      (ref_a.unref L_355).2.rlen = L_355.rlen ∧
      ref_a.destroy L_355 = (ref_a.unref L_355).2) ∧
    (mk_default.unref L_355 = (mk_default, L_355) ∧ mk_default.destroy L_355 = L_355) :=
  ⟨(no_double_release L_355 ref_a L_355_wf (Or.inr ⟨by decide, by decide⟩)).1
      ⟨by decide, by decide⟩,
   (no_double_release L_355 mk_default L_355_wf (Or.inl (by decide))).2.1 (by decide)⟩

/-- C6, as the code has it.  Move-construction gives the new object `src`'s slot and
handle and leaves `src` nil.  Move-assignment is a swap: the destination gets `src`'s
slot and handle and `src` gets the destination's former slot and handle, so `src` is
nil afterwards exactly when the destination was nil before.  Neither touches the
interpreter: the values the two objects denote are exchanged, in any interpreter. -/
theorem move_transfers_slot (this src : LuaRef) :
    (src.move_construct).1 = src ∧ (src.move_construct).2 = mk_default ∧
    (src.move_construct).2.is_nilref = true ∧
    (this.move_assign src).1 = src ∧ (this.move_assign src).2 = this ∧
    ((this.move_assign src).2.is_nilref = this.is_nilref) ∧
    (∀ L : LuaState, (this.move_assign src).1.value L = src.value L ∧
      (this.move_assign src).2.value L = this.value L) :=
  ⟨rfl, rfl, rfl, rfl, rfl, rfl, fun _ => ⟨rfl, rfl⟩⟩

/-- C6 fails as stated: move-assigning `ref_b` (slot 2) onto `ref_a` (slot 1), both
owning a slot of `L_355`, leaves the source owning slot 1, not nil. -/
theorem move_assign_source_not_nil :
    Live L_355 ref_a ∧ Live L_355 ref_b ∧
    (ref_a.move_assign ref_b).1 = ref_b ∧
    (ref_a.move_assign ref_b).2.is_nilref = false ∧
    (ref_a.move_assign ref_b).2 = ref_a :=
  ⟨⟨by decide, by decide⟩, ⟨by decide, by decide⟩, by decide, by decide, by decide⟩
/-- C2, as the code has it (copy independence).  Copy-constructing `r2` from a `LuaRef`
`r` that owns a slot leaves the stack, the tables and `r`'s slot as they were; `r2` is
not nil and owns a slot that was empty before, differs from `r`'s and now holds `r`'s
value; `r == r2` returns what the native equality of that value with itself is: true,
unless the value is NaN, for which it is false; no other slot changes; and after
releasing `r`, `r2`'s slot still holds that value.  Copying a nil `LuaRef` gives a nil
`LuaRef` and leaves the interpreter as it was. -/
theorem copy_independence (L : LuaState) (r : LuaRef) (hwf : RegistryWF L)
    (hr : Live L r) :
    (r.copy L).2.stack = L.stack ∧
    (r.copy L).2.slots r.ref_ = L.slots r.ref_ ∧
    (r.copy L).1.is_nilref = false ∧
    L.slots (r.copy L).1.ref_ = LuaValue.nil ∧
    (r.copy L).1.ref_ ≠ r.ref_ ∧
    (r.copy L).1.value (r.copy L).2 = r.value L ∧
    (r.value L ≠ LuaValue.nan →
      operator_eq r (r.copy L).1 (r.copy L).2 = Outcome.ret true (r.copy L).2) ∧
    (r.value L = LuaValue.nan →
      operator_eq r (r.copy L).1 (r.copy L).2 = Outcome.ret false (r.copy L).2) ∧
    operator_eq r (r.copy L).1 (r.copy L).2 = operator_eq r r (r.copy L).2 ∧
    (∀ k, k ≠ (r.copy L).1.ref_ → (r.copy L).2.slots k = L.slots k) ∧
    (r.copy L).1.value (r.unref (r.copy L).2).2 = r.value L ∧
    Live (r.unref (r.copy L).2).2 (r.copy L).1 ∧
    (∀ n : LuaRef, n.is_nilref = true →
      (n.copy L).1.is_nilref = true ∧ (n.copy L).2 = L) := by
  obtain ⟨hst, hfresh, hpos, hslots, hstack, -, -, hwf2⟩ := copy_of_live hwf hr
  have hne : (r.copy L).1.ref_ ≠ r.ref_ := fun e => hr.2 (e ▸ hfresh)
  have hval : (r.copy L).2.slots (r.copy L).1.ref_ = L.slots r.ref_ := by
    rw [hslots]; simp
  have hrs : (r.copy L).2.slots r.ref_ = L.slots r.ref_ := by
    rw [hslots, Function.update_noteq hne.symm]
  have hlive2 : Live (r.copy L).2 (r.copy L).1 := ⟨hst, by rw [hval]; exact hr.2⟩
  have hliver : Live (r.copy L).2 r := ⟨hr.1, by rw [hrs]; exact hr.2⟩
  have hafter : (r.unref (r.copy L).2).2.slots (r.copy L).1.ref_ = L.slots r.ref_ := by
    rw [unref_of_live hwf2 hliver]
    show Function.update (r.copy L).2.slots r.ref_ LuaValue.nil (r.copy L).1.ref_ = _
    rw [Function.update_noteq hne, hval]
  have heq : operator_eq r (r.copy L).1 (r.copy L).2 =
      Outcome.ret (decide (L.slots r.ref_ ≠ LuaValue.nan)) (r.copy L).2 := by
    unfold operator_eq
    rw [compare_with_main _ _ _ _ hr.1 hst, hrs, hval]
    simp only [luaV_compare, luaV_equalobj_self]
  have heq2 : operator_eq r r (r.copy L).2 =
      Outcome.ret (decide (L.slots r.ref_ ≠ LuaValue.nan)) (r.copy L).2 := by
    unfold operator_eq
    rw [compare_with_main _ _ _ _ hr.1 hr.1, hrs]
    simp only [luaV_compare, luaV_equalobj_self]
  refine ⟨hstack, hrs, live_not_nilref hwf2 hlive2, hfresh, hne, hval, ?_, ?_,
    heq.trans heq2.symm, ?_, hafter, ⟨hst, by rw [hafter]; exact hr.2⟩, ?_⟩
  · intro h
    have h' : L.slots r.ref_ ≠ LuaValue.nan := h
    rw [heq]
    simp [h']
  · intro h
    have h' : L.slots r.ref_ = LuaValue.nan := h
    rw [heq]
    simp [h']
  · intro k hk
    rw [hslots, Function.update_noteq hk]
  · intro n hn
    rw [copy_of_nilref hn]
    exact ⟨by simp [is_nilref], rfl⟩

theorem copy_independence_witness :
    (ref_a.copy L_355).2.stack = L_355.stack ∧
    (ref_a.copy L_355).2.slots ref_a.ref_ = L_355.slots ref_a.ref_ ∧
    (ref_a.copy L_355).1.is_nilref = false ∧
    L_355.slots (ref_a.copy L_355).1.ref_ = LuaValue.nil ∧
    (ref_a.copy L_355).1.ref_ ≠ ref_a.ref_ ∧
    (ref_a.copy L_355).1.value (ref_a.copy L_355).2 = ref_a.value L_355 ∧
    operator_eq ref_a (ref_a.copy L_355).1 (ref_a.copy L_355).2
      = Outcome.ret true (ref_a.copy L_355).2 ∧
    (ref_a.copy L_355).1.value (ref_a.unref (ref_a.copy L_355).2).2 = ref_a.value L_355 ∧
    Live (ref_a.unref (ref_a.copy L_355).2).2 (ref_a.copy L_355).1 :=
  have h := copy_independence L_355 ref_a L_355_wf ⟨by decide, by decide⟩
  ⟨h.1, h.2.1, h.2.2.1, h.2.2.2.1, h.2.2.2.2.1, h.2.2.2.2.2.1,
    h.2.2.2.2.2.2.1 (by decide), h.2.2.2.2.2.2.2.2.2.2.1, h.2.2.2.2.2.2.2.2.2.2.2.1⟩

theorem L_nan_wf : RegistryWF L_nan :=
  (luaL_ref_spec (L := pushvalue L_new LuaValue.nan)
    ⟨L_new_wf.1, L_new_wf.2, L_new_wf.3, L_new_wf.4⟩ rfl (by simp)).2.2.2.2.2.2

/-- C2 fails as stated: in `L_nan` the handle `ref_nan` is not nil and owns slot 1, which
holds NaN; its copy owns slot 2, which holds NaN too, and `ref_nan == copy` returns
false. -/
theorem copy_of_nan_not_equal :
    RegistryWF L_nan ∧ Live L_nan ref_nan ∧ ref_nan.is_nilref = false ∧
    ref_nan.value L_nan = LuaValue.nan ∧
    (ref_nan.copy L_nan).1.is_nilref = false ∧
    (ref_nan.copy L_nan).1.ref_ ≠ ref_nan.ref_ ∧
    (ref_nan.copy L_nan).1.value (ref_nan.copy L_nan).2 = ref_nan.value L_nan ∧
    operator_eq ref_nan (ref_nan.copy L_nan).1 (ref_nan.copy L_nan).2
      = Outcome.ret false (ref_nan.copy L_nan).2 := by
  refine ⟨L_nan_wf, ⟨by decide, by decide⟩, by decide, by decide, by decide, by decide,
    by decide, ?_⟩
  unfold operator_eq
  rw [compare_with_main _ _ _ _ (by decide) (by decide)]
  rfl

theorem type_main (r : LuaRef) (L : LuaState) (hs : r.state_ = StatePtr.main) :
    r.type L = Outcome.ret (if r.ref_ = LUA_REFNIL then LUA_TNIL else (L.slots r.ref_).ttype)
      L := by
  unfold LuaRef.type
  by_cases h : r.ref_ = LUA_REFNIL
  · simp [h]
  · simp only [h, if_false, hs, ScopedSavedStack, Outcome.finally, lua_gettop, lua_rawgeti,
      lua_type, index2value_top]
    rw [lua_settop_push]

theorem typeName_main (r : LuaRef) (L : LuaState) (hs : r.state_ = StatePtr.main) :
    r.typeName L =
      Outcome.ret
        (lua_typename (if r.ref_ = LUA_REFNIL then LUA_TNIL else (L.slots r.ref_).ttype)) L := by
  unfold typeName
  rw [type_main r L hs]
  rfl

theorem not_nilref_iff (r : LuaRef) :
    r.is_nilref = false ↔ r.state_ = StatePtr.main ∧ r.ref_ ≠ LUA_REFNIL := by
  cases r with
  | mk s k =>
    cases s <;> simp [is_nilref]

/-- The result of `get<T>()`: the exception exactly when the handle is nil or the
protocol's check fails on the pushed value; otherwise the protocol's `get` on the pushed
value, the stack being set back to its depth. -/
theorem get_eq {T : Type} (tag : TypeTag T) (r : LuaRef) (L : LuaState) :
    r.get tag L =
      if r.is_nilref = true ∨ tag.check_type (pushvalue L (r.value L)) (-1) = false then
        Outcome.thrown L
      else
        Outcome.ret (tag.get (pushvalue L (r.value L)) (-1)).1
          (lua_settop (tag.get (pushvalue L (r.value L)) (-1)).2 L.stack.length) := by
  unfold LuaRef.get
  by_cases hn : r.is_nilref = true
  · have : r.state_ = StatePtr.null ∨ r.ref_ = LUA_REFNIL := by
      simpa [is_nilref] using hn
    simp [hn, this]
  · have hn' : r.is_nilref = false := by simpa using hn
    have hm := (not_nilref_iff r).mp hn'
    have h1 : ¬ (r.state_ = StatePtr.null ∨ r.ref_ = LUA_REFNIL) := by
      rw [hm.1]; simp [hm.2]
    rw [if_neg h1]
    show ScopedSavedStack (lua_gettop L)
      (if (!tag.check_type (pushvalue L (r.value L)) (-1)) = true then
        (r.typeName (pushvalue L (r.value L))).bind (fun _ L2 => Outcome.thrown L2)
      else Outcome.ret (tag.get (pushvalue L (r.value L)) (-1)).1
        (tag.get (pushvalue L (r.value L)) (-1)).2) = _
    by_cases hc : tag.check_type (pushvalue L (r.value L)) (-1) = true
    · simp [hc, hn', ScopedSavedStack, Outcome.finally, lua_gettop]
    · have hc' : tag.check_type (pushvalue L (r.value L)) (-1) = false := by simpa using hc
      rw [typeName_main r _ hm.1]
      simp only [hc', Bool.not_false, if_true, or_true, Outcome.bind, ScopedSavedStack,
        Outcome.finally, lua_gettop]
      rw [lua_settop_push]

/-- C3 (typed extraction fails exactly on nil or type mismatch).  For every `LuaRef`
`r` and host type `T`, `get<T>()` raises the type mismatch exactly when `r` is nil or the
protocol's `check_type` for `T` is false on `r`'s pushed value, leaving the interpreter as
it was, and otherwise returns the protocol's `get` for `T` of that value with the stack
back at its depth; `r == v` for a host value `v` raises in exactly the same cases and
otherwise returns whether the extracted value equals `v` (it never returns on a
mismatched type). -/
theorem typed_extraction {T : Type} [DecidableEq T] (tag : TypeTag T) (r : LuaRef)
    (L : LuaState) (v : T) :
    ((∃ L1, r.get tag L = Outcome.thrown L1) ↔
      (r.is_nilref = true ∨ tag.check_type (pushvalue L (r.value L)) (-1) = false)) ∧
    ((r.is_nilref = true ∨ tag.check_type (pushvalue L (r.value L)) (-1) = false) →
      r.get tag L = Outcome.thrown L ∧ r.operator_eq_value tag v L = Outcome.thrown L) ∧
    (¬ (r.is_nilref = true ∨ tag.check_type (pushvalue L (r.value L)) (-1) = false) →
      r.get tag L =
        Outcome.ret (tag.get (pushvalue L (r.value L)) (-1)).1
          (lua_settop (tag.get (pushvalue L (r.value L)) (-1)).2 L.stack.length) ∧
      r.operator_eq_value tag v L =
        Outcome.ret (decide ((tag.get (pushvalue L (r.value L)) (-1)).1 = v))
          (lua_settop (tag.get (pushvalue L (r.value L)) (-1)).2 L.stack.length)) ∧
    ((∃ L1, r.operator_eq_value tag v L = Outcome.thrown L1) ↔
      (∃ L1, r.get tag L = Outcome.thrown L1)) := by
  have hg := get_eq tag r L
  by_cases hc : r.is_nilref = true ∨ tag.check_type (pushvalue L (r.value L)) (-1) = false
  · rw [if_pos hc] at hg
    have he : r.operator_eq_value tag v L = Outcome.thrown L := by
      unfold operator_eq_value; rw [hg]; rfl
    refine ⟨⟨fun _ => hc, fun _ => ⟨L, hg⟩⟩, fun _ => ⟨hg, he⟩, fun h => absurd hc h, ?_⟩
    exact ⟨fun _ => ⟨L, hg⟩, fun _ => ⟨L, he⟩⟩
  · rw [if_neg hc] at hg
    have he : r.operator_eq_value tag v L =
        Outcome.ret (decide ((tag.get (pushvalue L (r.value L)) (-1)).1 = v))
          (lua_settop (tag.get (pushvalue L (r.value L)) (-1)).2 L.stack.length) := by
      unfold operator_eq_value; rw [hg]; rfl
    refine ⟨⟨?_, fun h => absurd h hc⟩, fun h => absurd h hc, fun _ => ⟨hg, he⟩, ?_⟩
    · rintro ⟨L1, h1⟩
      rw [hg] at h1
      cases h1
    · constructor
      · rintro ⟨L1, h1⟩
        rw [he] at h1
        cases h1
      · rintro ⟨L1, h1⟩
        rw [hg] at h1
        cases h1

theorem typed_extraction_witness :
    (ref_a.get types.type_tag_int L_355 = Outcome.ret 3 L_355 ∧
      ref_a.operator_eq_value types.type_tag_int 3 L_355 = Outcome.ret true L_355) ∧
    (mk_default.get types.type_tag_int L_355 = Outcome.thrown L_355 ∧
      mk_default.operator_eq_value types.type_tag_int 3 L_355 = Outcome.thrown L_355) := by
  have h1 := (typed_extraction types.type_tag_int ref_a L_355 3).2.2.1 (by decide)
  have h2 := (typed_extraction types.type_tag_int mk_default L_355 3).2.1 (Or.inl (by decide))
  refine ⟨?_, h2⟩
  have e : lua_settop (types.type_tag_int.get (pushvalue L_355 (ref_a.value L_355)) (-1)).2
      L_355.stack.length = L_355 := lua_settop_push L_355 _
  rw [e] at h1
  exact h1
theorem sameContents_refl (L : LuaState) : SameContents L L := ⟨rfl, rfl, rfl, rfl⟩

theorem sameContents_trans {L L1 L2 : LuaState} (h1 : SameContents L L1)
    (h2 : SameContents L1 L2) : SameContents L L2 :=
  ⟨h2.1.trans h1.1, h2.2.1.trans h1.2.1, h2.2.2.1.trans h1.2.2.1, h2.2.2.2.trans h1.2.2.2⟩

theorem live_of_slots {L M : LuaState} {r : LuaRef} (h : Live L r)
    (hs : M.slots r.ref_ = L.slots r.ref_) : Live M r :=
  ⟨h.1, by rw [hs]; exact h.2⟩

theorem extends_refl (L : LuaState) : Extends L L := fun _ _ => rfl

theorem extends_trans {L L1 L2 : LuaState} (h1 : Extends L L1) (h2 : Extends L1 L2) :
    Extends L L2 := by
  intro k hk
  have e1 := h1 k hk
  have e2 := h2 k (by rw [e1]; exact hk)
  rw [e2, e1]

theorem extends_live {L M : LuaState} (h : Extends L M) {r : LuaRef} (hl : Live L r) :
    Live M r := live_of_slots hl (h _ hl.2)

theorem extends_valid {L M : LuaState} (h : Extends L M) {r : LuaRef} (hv : LuaRef.Valid L r) :
    LuaRef.Valid M r := hv.imp id (extends_live h)

theorem extends_of_same {L M : LuaState} (h : SameContents L M) : Extends L M :=
  fun k _ => by rw [h.2.1]

/-- Copy-construction of a valid `LuaRef` keeps the stack and the tables, keeps every
owned slot, and gives a valid `LuaRef`. -/
theorem copy_of_valid {L : LuaState} (hwf : RegistryWF L) {r : LuaRef}
    (hv : LuaRef.Valid L r) :
    RegistryWF (r.copy L).2 ∧ Extends L (r.copy L).2 ∧ (r.copy L).2.stack = L.stack ∧
    (r.copy L).2.tables = L.tables ∧ (r.copy L).2.uindex = L.uindex ∧
    LuaRef.Valid (r.copy L).2 (r.copy L).1 ∧
    ((r.copy L).1.state_ = r.state_) := by
  rcases hv with hn | hl
  · rw [copy_of_nilref hn]
    exact ⟨hwf, extends_refl L, rfl, rfl, rfl, Or.inl (by simp [is_nilref]), rfl⟩
  · obtain ⟨hst, hfresh, hpos, hslots, hstack, htab, hui, hwf2⟩ := copy_of_live hwf hl
    have hval : (r.copy L).2.slots (r.copy L).1.ref_ = L.slots r.ref_ := by
      rw [hslots]; simp
    refine ⟨hwf2, ?_, hstack, htab, hui, Or.inr ⟨hst, by rw [hval]; exact hl.2⟩,
      hst.trans hl.1.symm⟩
    intro k hk
    have hne : k ≠ (r.copy L).1.ref_ := fun e => hk (e ▸ hfresh)
    rw [hslots, Function.update_noteq hne]

/-- Destroying the copy of a valid `LuaRef`, in an interpreter with the contents the
copy left, gives back the contents from before the copy. -/
theorem destroy_copy {L M : LuaState} (hwf : RegistryWF L) {r : LuaRef}
    (hv : LuaRef.Valid L r) (hM : SameContents (r.copy L).2 M) (hMwf : RegistryWF M) :
    SameContents L ((r.copy L).1.destroy M) ∧ RegistryWF ((r.copy L).1.destroy M) := by
  rcases hv with hn | hl
  · rw [copy_of_nilref hn] at hM ⊢
    have hnil : (⟨r.state_, LUA_REFNIL⟩ : LuaRef).is_nilref = true := by simp [is_nilref]
    simp only [destroy, unref_of_nilref hnil]
    exact ⟨hM, hMwf⟩
  · obtain ⟨hst, hfresh, hpos, hslots, hstack, htab, hui, hwf2⟩ := copy_of_live hwf hl
    have hval : (r.copy L).2.slots (r.copy L).1.ref_ = L.slots r.ref_ := by
      rw [hslots]; simp
    have hliveM : Live M (r.copy L).1 := ⟨hst, by rw [hM.2.1, hval]; exact hl.2⟩
    refine ⟨?_, destroy_of_live_wf hMwf hliveM⟩
    simp only [destroy, unref_of_live hMwf hliveM]
    refine ⟨hM.1.trans hstack, ?_, hM.2.2.1.trans htab, hM.2.2.2.trans hui⟩
    show Function.update M.slots (r.copy L).1.ref_ LuaValue.nil = L.slots
    rw [hM.2.1, hslots, Function.update_idem, ← hfresh, Function.update_eq_self]

theorem host_copy_valid {L : LuaState} (hwf : RegistryWF L) {h : HostValue}
    (hv : HostValue.Valid L h) :
    RegistryWF (h.copy L).2 ∧ Extends L (h.copy L).2 ∧ (h.copy L).2.stack = L.stack ∧
    (h.copy L).2.tables = L.tables ∧ (h.copy L).2.uindex = L.uindex ∧
    HostValue.Valid (h.copy L).2 (h.copy L).1 := by
  cases h with
  | int i => exact ⟨hwf, extends_refl L, rfl, rfl, rfl, trivial⟩
  | cstr s => exact ⟨hwf, extends_refl L, rfl, rfl, rfl, trivial⟩
  | ref r =>
    have := copy_of_valid hwf (r := r) hv
    exact ⟨this.1, this.2.1, this.2.2.1, this.2.2.2.1, this.2.2.2.2.1, this.2.2.2.2.2.1⟩

theorem host_destroy_copy {L M : LuaState} (hwf : RegistryWF L) {h : HostValue}
    (hv : HostValue.Valid L h) (hM : SameContents (h.copy L).2 M) (hMwf : RegistryWF M) :
    SameContents L ((h.copy L).1.destroy M) ∧ RegistryWF ((h.copy L).1.destroy M) := by
  cases h with
  | int i => exact ⟨hM, hMwf⟩
  | cstr s => exact ⟨hM, hMwf⟩
  | ref r => exact destroy_copy hwf (r := r) hv hM hMwf

theorem host_valid_extends {L M : LuaState} (hE : Extends L M) {h : HostValue}
    (hv : HostValue.Valid L h) : HostValue.Valid M h := by
  cases h with
  | int i => trivial
  | cstr s => trivial
  | ref r => exact extends_valid hE (r := r) hv
theorem getField_with_inert (pushkey : LuaState → Except Fault LuaState) (r : LuaRef)
    (L : LuaState)
    (hr : r.ref_ = LUA_REFNIL ∨ (r.state_ = StatePtr.main ∧
      (L.slots r.ref_).ttype ≠ LUA_TTABLE ∧ (L.slots r.ref_).ttype ≠ LUA_TUSERDATA)) :
    getField_with pushkey r L = Outcome.ret mk_default L := by
  unfold getField_with
  by_cases h : r.ref_ = LUA_REFNIL
  · simp [h]
  · rcases hr with hn | ⟨hs, ht, hu⟩
    · exact absurd hn h
    · simp only [h, if_false, hs, lua_rawgeti, lua_type, index2value_top, ht, hu, ne_eq,
        not_false_eq_true, and_self, if_true, ScopedSavedStack, Outcome.finally, lua_gettop]
      rw [lua_settop_push]

theorem setFieldImpl_body_inert (r : LuaRef) (key value : HostValue) (M : LuaState)
    (hr : r.ref_ = LUA_REFNIL ∨ (r.state_ = StatePtr.main ∧
      (M.slots r.ref_).ttype ≠ LUA_TTABLE)) :
    setFieldImpl_body r key value M = Outcome.ret () M := by
  unfold setFieldImpl_body
  by_cases h : r.ref_ = LUA_REFNIL
  · simp [h]
  · rcases hr with hn | ⟨hs, ht⟩
    · exact absurd hn h
    · simp only [h, if_false, hs, lua_rawgeti, lua_type, index2value_top, ht, ne_eq,
        not_false_eq_true, if_true, ScopedSavedStack, Outcome.finally, lua_gettop]
      rw [lua_settop_push]

theorem nontable_extends {L M : LuaState} (hE : Extends L M) {r : LuaRef}
    (hr : r.ref_ = LUA_REFNIL ∨ (Live L r ∧ (r.value L).ttype ≠ LUA_TTABLE)) :
    r.ref_ = LUA_REFNIL ∨ (Live M r ∧ (r.value M).ttype ≠ LUA_TTABLE) := by
  rcases hr with hn | ⟨hl, ht⟩
  · exact Or.inl hn
  · refine Or.inr ⟨extends_live hE hl, ?_⟩
    unfold LuaRef.value at ht ⊢
    rw [hE _ hl.2]
    exact ht

theorem setFieldImpl_inert {L : LuaState} (hwf : RegistryWF L) (r : LuaRef)
    (hr : r.ref_ = LUA_REFNIL ∨ (Live L r ∧ (r.value L).ttype ≠ LUA_TTABLE))
    {key value : HostValue} (hk : HostValue.Valid L key) (hv : HostValue.Valid L value) :
    ∃ L1, setFieldImpl r key value L = Outcome.ret () L1 ∧ SameContents L L1 ∧
      RegistryWF L1 := by
  obtain ⟨kwf, kE, -, -, -, -⟩ := host_copy_valid hwf hk
  have hv1 : HostValue.Valid (key.copy L).2 value := host_valid_extends kE hv
  obtain ⟨vwf, vE, -, -, -, -⟩ := host_copy_valid kwf hv1
  have hr2 := nontable_extends (extends_trans kE vE) hr
  have hb := setFieldImpl_body_inert r (key.copy L).1 (value.copy (key.copy L).2).1
    (value.copy (key.copy L).2).2 (hr2.imp id (fun h => ⟨h.1.1, h.2⟩))
  have d1 := host_destroy_copy kwf hv1 (sameContents_refl _) vwf
  have d2 := host_destroy_copy hwf hk d1.1 d1.2
  refine ⟨_, ?_, d2.1, d2.2⟩
  unfold setFieldImpl
  rw [hb]
  rfl

theorem setField_wrap_inert {L : LuaState} (hwf : RegistryWF L)
    {value : HostValue} (hv : HostValue.Valid L value)
    (inner : HostValue → LuaState → Outcome Unit)
    (hin : ∀ M v, RegistryWF M → Extends L M → HostValue.Valid M v →
      ∃ M1, inner v M = Outcome.ret () M1 ∧ SameContents M M1 ∧ RegistryWF M1) :
    ∃ L1, (inner (value.copy L).1 (value.copy L).2).finally
        (fun L2 => (value.copy L).1.destroy L2) = Outcome.ret () L1 ∧
      SameContents L L1 ∧ RegistryWF L1 := by
  obtain ⟨vwf, vE, -, -, -, vv⟩ := host_copy_valid hwf hv
  obtain ⟨M1, e, hs, hw⟩ := hin _ _ vwf vE vv
  have d := host_destroy_copy hwf hv hs hw
  refine ⟨_, ?_, d.1, d.2⟩
  rw [e]
  rfl

theorem setField_cstr_inert {L : LuaState} (hwf : RegistryWF L) (r : LuaRef)
    (hr : r.ref_ = LUA_REFNIL ∨ (Live L r ∧ (r.value L).ttype ≠ LUA_TTABLE))
    (key : String) {value : HostValue} (hv : HostValue.Valid L value) :
    ∃ L1, setField_cstr r key value L = Outcome.ret () L1 ∧ SameContents L L1 ∧
      RegistryWF L1 :=
  setField_wrap_inert hwf hv (fun v M => setFieldImpl r (.cstr key) v M)
    (fun _ _ hM hE hvM => setFieldImpl_inert hM r (nontable_extends hE hr) trivial hvM)

/-- C4 (field operations on a non-container are inert).  Let `r` be nil, or own a slot
whose value is not a table.  Then `setField` with an `int`, C-string, `std::string` or
`LuaRef` key and any value returns without raising and leaves the stack, every registry
slot, every table and the value `r` denotes as they were (with a key and a value that
are not `LuaRef`s the whole interpreter is untouched).  If moreover the value is not a
userdata, `getField` with each kind of key returns a nil `LuaRef` without raising and
leaves the interpreter as it was. -/
theorem field_ops_inert (L : LuaState) (r : LuaRef) (hwf : RegistryWF L)
    (hr : r.ref_ = LUA_REFNIL ∨ (Live L r ∧ (r.value L).ttype ≠ LUA_TTABLE))
    (key : LuaRef) (hk : LuaRef.Valid L key) (value : HostValue)
    (hv : HostValue.Valid L value) (i : Int) (s : String) :
    ((r.ref_ = LUA_REFNIL ∨ (r.value L).ttype ≠ LUA_TUSERDATA) →
      (∀ k : LuaRef, getField r k L = Outcome.ret mk_default L) ∧
      getField_cstr r s L = Outcome.ret mk_default L ∧
      getField_string r s L = Outcome.ret mk_default L ∧
      getField_int r i L = Outcome.ret mk_default L) ∧
    (∃ L1, setField_int r i value L = Outcome.ret () L1 ∧ SameContents L L1 ∧
      r.value L1 = r.value L) ∧
    (∃ L1, setField_cstr r s value L = Outcome.ret () L1 ∧ SameContents L L1 ∧
      r.value L1 = r.value L) ∧
    (∃ L1, setField_string r s value L = Outcome.ret () L1 ∧ SameContents L L1 ∧
      r.value L1 = r.value L) ∧
    (∃ L1, setField r key value L = Outcome.ret () L1 ∧ SameContents L L1 ∧
      r.value L1 = r.value L) ∧
    (∀ j : Int, setField_int r i (HostValue.int j) L = Outcome.ret () L ∧
      setField_cstr r s (HostValue.int j) L = Outcome.ret () L ∧
      setField_string r s (HostValue.int j) L = Outcome.ret () L) := by
  have same_val : ∀ L1, SameContents L L1 → r.value L1 = r.value L := by
    intro L1 h
    unfold LuaRef.value
    rw [h.2.1]
  refine ⟨?_, ?_, ?_, ?_, ?_, ?_⟩
  · intro hu
    have hc : r.ref_ = LUA_REFNIL ∨ (r.state_ = StatePtr.main ∧
        (L.slots r.ref_).ttype ≠ LUA_TTABLE ∧ (L.slots r.ref_).ttype ≠ LUA_TUSERDATA) := by
      rcases hr with hn | ⟨hl, ht⟩
      · exact Or.inl hn
      · rcases hu with hn | hu
        · exact Or.inl hn
        · exact Or.inr ⟨hl.1, ht, hu⟩
    have hcs : getField_cstr r s L = Outcome.ret mk_default L := getField_with_inert _ r L hc
    exact ⟨fun k => getField_with_inert _ r L hc, hcs, hcs, getField_with_inert _ r L hc⟩
  · obtain ⟨L1, e, hs, -⟩ := setField_wrap_inert hwf hv
      (fun v M => setFieldImpl r (.int i) v M)
      (fun _ _ hM hE hvM => setFieldImpl_inert hM r (nontable_extends hE hr) trivial hvM)
    exact ⟨L1, e, hs, same_val L1 hs⟩
  · obtain ⟨L1, e, hs, -⟩ := setField_cstr_inert hwf r hr s hv
    exact ⟨L1, e, hs, same_val L1 hs⟩
  · obtain ⟨L1, e, hs, -⟩ := setField_wrap_inert hwf hv
      (fun v M => setField_cstr r s v M)
      (fun _ _ hM hE hvM => setField_cstr_inert hM r (nontable_extends hE hr) s hvM)
    exact ⟨L1, e, hs, same_val L1 hs⟩
  · obtain ⟨L1, e, hs, -⟩ := setField_wrap_inert hwf hv
      (fun v M => setFieldImpl r (.ref key) v M)
      (fun _ _ hM hE hvM =>
        setFieldImpl_inert hM r (nontable_extends hE hr) (extends_valid hE (r := key) hk) hvM)
    exact ⟨L1, e, hs, same_val L1 hs⟩
  · intro j
    have hb : ∀ k : HostValue, setFieldImpl_body r k (HostValue.int j) L = Outcome.ret () L :=
      fun k => setFieldImpl_body_inert r k _ L (hr.imp id (fun h => ⟨h.1.1, h.2⟩))
    refine ⟨?_, ?_, ?_⟩
    · simp only [setField_int, setFieldImpl, HostValue.copy, HostValue.destroy, hb,
        Outcome.finally]
    · simp only [setField_cstr, setFieldImpl, HostValue.copy, HostValue.destroy, hb,
        Outcome.finally]
    · simp only [setField_string, setField_cstr, setFieldImpl, HostValue.copy,
        HostValue.destroy, hb, Outcome.finally]
theorem field_ops_inert_witness :
    ((∀ k : LuaRef, getField ref_a k L_355 = Outcome.ret mk_default L_355) ∧
      getField_cstr ref_a "x" L_355 = Outcome.ret mk_default L_355 ∧
      getField_string ref_a "x" L_355 = Outcome.ret mk_default L_355 ∧
      getField_int ref_a 10 L_355 = Outcome.ret mk_default L_355) ∧
    (∃ L1, setField ref_a ref_b (HostValue.ref ref_c) L_355 = Outcome.ret () L1 ∧
      SameContents L_355 L1 ∧ ref_a.value L1 = ref_a.value L_355) ∧
    (∃ L1, setField (mk_state StatePtr.main) ref_b (HostValue.ref ref_c) L_355
        = Outcome.ret () L1 ∧
      SameContents L_355 L1 ∧
      (mk_state StatePtr.main).value L1 = (mk_state StatePtr.main).value L_355) :=
  ⟨(field_ops_inert L_355 ref_a L_355_wf
      (Or.inr ⟨⟨by decide, by decide⟩, by decide⟩) ref_b (Or.inr ⟨by decide, by decide⟩)
      (HostValue.ref ref_c) (Or.inr ⟨by decide, by decide⟩) 10 "x").1 (Or.inr (by decide)),
   (field_ops_inert L_355 ref_a L_355_wf
      (Or.inr ⟨⟨by decide, by decide⟩, by decide⟩) ref_b (Or.inr ⟨by decide, by decide⟩)
      (HostValue.ref ref_c) (Or.inr ⟨by decide, by decide⟩) 10 "x").2.2.2.2.1,
   (field_ops_inert L_355 (mk_state StatePtr.main) L_355_wf
      (Or.inl (by decide)) ref_b (Or.inr ⟨by decide, by decide⟩)
      (HostValue.ref ref_c) (Or.inr ⟨by decide, by decide⟩) 10 "x").2.2.2.2.1⟩

/-- C5, evaluated on nil operands in `L_355`, where `ref_a` owns a slot.  With a
default-constructed (or moved-from) nil `LuaRef` on the right, every comparison stops at
the `assert(state == state_)` of `push(lua_State*)`; with it on the left, the stack guard
is built on the null `lua_State*`.  With a nil `LuaRef` that has the interpreter handle
(built from the handle only, or adopted from a nil value), `==` reads registry slot
`LUA_REFNIL` and returns false, and `<` raises a Lua order error. -/
theorem nil_operand_comparisons :
    operator_eq ref_a mk_default L_355 = Outcome.fault Fault.assert_failed ∧
    operator_ne mk_default ref_a L_355 = Outcome.fault Fault.assert_failed ∧
    operator_lt ref_a mk_default L_355 = Outcome.fault Fault.assert_failed ∧
    operator_le ref_a mk_default L_355 = Outcome.fault Fault.assert_failed ∧
    operator_gt mk_default ref_a L_355 = Outcome.fault Fault.assert_failed ∧
    operator_ge mk_default ref_a L_355 = Outcome.fault Fault.assert_failed ∧
    operator_eq mk_default ref_a L_355 = Outcome.fault Fault.null_state ∧
    operator_lt mk_default ref_a L_355 = Outcome.fault Fault.null_state ∧
    operator_eq ref_a.move_construct.2 ref_a.move_construct.1 L_355
      = Outcome.fault Fault.null_state ∧
    operator_eq (mk_state StatePtr.main) ref_a L_355 = Outcome.ret false L_355 ∧
    operator_lt (mk_state StatePtr.main) ref_a L_355 = Outcome.lua_error ∧
    operator_lt ref_a (mk_state StatePtr.main) L_355 = Outcome.lua_error := by
  refine ⟨rfl, rfl, rfl, rfl, rfl, rfl, rfl, rfl, rfl, ?_, ?_, ?_⟩
  · have h := compare_with_main CompareOp.LUA_OPEQ (mk_state StatePtr.main) ref_a L_355
      rfl (by decide)
    unfold operator_eq
    rw [h]
    rfl
  · have h := compare_with_main CompareOp.LUA_OPLT (mk_state StatePtr.main) ref_a L_355
      rfl (by decide)
    unfold operator_lt
    rw [h]
    rfl
  · have h := compare_with_main CompareOp.LUA_OPLT ref_a (mk_state StatePtr.main) L_355
      (by decide) rfl
    unfold operator_lt
    rw [h]
    rfl
theorem assign_nil_eq_copy {this : LuaRef} (h : this.is_nilref = true) (src : LuaRef)
    (L : LuaState) : assign this src L = src.copy L := by
  simp [assign, copy, unref_of_nilref h]

/-- On two different objects, `operator_assign` is `assign` on their values. -/
theorem operator_assign_distinct (objs : Nat → LuaRef) (this src : Nat) (L : LuaState)
    (hne : src ≠ this) :
    operator_assign objs this src L =
      (Function.update objs this (assign (objs this) (objs src) L).1,
        (assign (objs this) (objs src) L).2) := by
  unfold operator_assign assign
  simp only [Function.update_noteq hne, Function.update_same, Function.update_idem]
  split <;> rfl

/-- Copy-assignment between two different objects that own different slots: the
destination ends up owning a slot with the source's value, the source keeps its slot and
value, and only the destination's old and new slots change. -/
theorem assign_of_live {L : LuaState} (hwf : RegistryWF L) {d s : LuaRef}
    (hd : LuaRef.Valid L d) (hs : Live L s) (hds : d.ref_ ≠ s.ref_) :
    Live (assign d s L).2 (assign d s L).1 ∧
    (assign d s L).1.value (assign d s L).2 = s.value L ∧
    Live (assign d s L).2 s ∧ s.value (assign d s L).2 = s.value L ∧
    (assign d s L).2.stack = L.stack ∧ (assign d s L).2.tables = L.tables ∧
    RegistryWF (assign d s L).2 ∧
    (∀ k, k ≠ d.ref_ → k ≠ (assign d s L).1.ref_ → (assign d s L).2.slots k = L.slots k) := by
  have hwf1 : RegistryWF (d.unref L).2 := by
    rcases hd with hn | hl
    · rw [unref_of_nilref hn]; exact hwf
    · exact destroy_of_live_wf hwf hl
  have hslots1 : ∀ k, k ≠ d.ref_ → (d.unref L).2.slots k = L.slots k := by
    intro k hk
    rcases hd with hn | hl
    · rw [unref_of_nilref hn]
    · rw [unref_of_live hwf hl]
      show Function.update L.slots d.ref_ LuaValue.nil k = _
      rw [Function.update_noteq hk]
  have hst1 : (d.unref L).2.stack = L.stack ∧ (d.unref L).2.tables = L.tables := by
    rcases hd with hn | hl
    · rw [unref_of_nilref hn]; exact ⟨rfl, rfl⟩
    · rw [unref_of_live hwf hl]; exact ⟨rfl, rfl⟩
  have hs1 : Live (d.unref L).2 s := live_of_slots hs (hslots1 _ hds.symm)
  have e : assign d s L = s.copy (d.unref L).2 := by
    simp [assign, copy]
  rw [e]
  obtain ⟨hst, hfresh, hpos, hslots, hstack, htab, hui, hwf2⟩ := copy_of_live hwf1 hs1
  have hne : s.ref_ ≠ (s.copy (d.unref L).2).1.ref_ := fun e => hs1.2 (e ▸ hfresh)
  have hval : (s.copy (d.unref L).2).2.slots (s.copy (d.unref L).2).1.ref_ = L.slots s.ref_ := by
    rw [hslots, Function.update_same, hslots1 _ hds.symm]
  have hsv : (s.copy (d.unref L).2).2.slots s.ref_ = L.slots s.ref_ := by
    rw [hslots, Function.update_noteq hne, hslots1 _ hds.symm]
  refine ⟨⟨hst, by rw [hval]; exact hs.2⟩, hval, ⟨hs.1, by rw [hsv]; exact hs.2⟩, hsv,
    hstack.trans hst1.1, htab.trans hst1.2, hwf2, ?_⟩
  intro k hk1 hk2
  rw [hslots, Function.update_noteq hk2, hslots1 k hk1]

/-- C10, evaluated at a self-assignment.  In `L_355` the object at address 0 is `ref_a`,
which owns slot 1 holding 3.  After `r = r` on that object its slot has been released,
the object is nil, and no slot holds the value any more; the other registry slots are
as before. -/
theorem self_assignment_drops_value :
    Live L_355 ref_a ∧ ref_a.value L_355 = LuaValue.number 3 ∧
    ((operator_assign (fun _ => ref_a) 0 0 L_355).1 0) = mk_default ∧
    ((operator_assign (fun _ => ref_a) 0 0 L_355).1 0).is_nilref = true ∧
    (operator_assign (fun _ => ref_a) 0 0 L_355).2.slots 1 = LuaValue.nil ∧
    (operator_assign (fun _ => ref_a) 0 0 L_355).2.free = [1] ∧
    (∀ k, (operator_assign (fun _ => ref_a) 0 0 L_355).2.slots k ≠ LuaValue.number 3) := by
  refine ⟨⟨by decide, by decide⟩, by decide, by decide, by decide, by decide, by decide, ?_⟩
  intro k
  have e : (operator_assign (fun _ => ref_a) 0 0 L_355).2.slots =
      Function.update (Function.update (Function.update (Function.update
        (fun _ => LuaValue.nil) 1 (LuaValue.number 3)) 2 (LuaValue.number 5)) 3
        (LuaValue.number 5)) 1 LuaValue.nil := rfl
  rw [e]
  simp only [Function.update_apply]
  split_ifs <;> simp
/-- Adopting a non-nil value on top of the stack of a well-formed interpreter. -/
theorem fromStackTop_spec {L : LuaState} (hwf : RegistryWF L) {v : LuaValue}
    {st : List LuaValue} (hs : L.stack = v :: st) (hv : v ≠ LuaValue.nil) :
    (fromStackTop StatePtr.main L).1.state_ = StatePtr.main ∧
    L.slots (fromStackTop StatePtr.main L).1.ref_ = LuaValue.nil ∧
    (fromStackTop StatePtr.main L).2.slots
      = Function.update L.slots (fromStackTop StatePtr.main L).1.ref_ v ∧
    (fromStackTop StatePtr.main L).2.stack = st ∧
    (fromStackTop StatePtr.main L).2.tables = L.tables ∧
    (fromStackTop StatePtr.main L).2.uindex = L.uindex ∧
    RegistryWF (fromStackTop StatePtr.main L).2 := by
  have sp := luaL_ref_spec hwf hs hv
  exact ⟨rfl, sp.1, sp.2.2.1, sp.2.2.2.1, sp.2.2.2.2.1, sp.2.2.2.2.2.1, sp.2.2.2.2.2.2⟩

theorem extends_of_update {L M : LuaState} {a : Int} {v : LuaValue}
    (hf : L.slots a = LuaValue.nil) (hs : M.slots = Function.update L.slots a v) :
    Extends L M := by
  intro k hk
  have hne : k ≠ a := fun e => hk (e ▸ hf)
  rw [hs, Function.update_noteq hne]

theorem destroy_of_live {M : LuaState} (hwf : RegistryWF M) {c : LuaRef} (hc : Live M c) :
    (c.destroy M).slots = Function.update M.slots c.ref_ LuaValue.nil ∧
    (c.destroy M).stack = M.stack ∧ (c.destroy M).tables = M.tables ∧
    (c.destroy M).uindex = M.uindex ∧ RegistryWF (c.destroy M) := by
  refine ⟨?_, ?_, ?_, ?_, destroy_of_live_wf hwf hc⟩ <;>
    simp only [destroy, unref_of_live hwf hc]

/-- Destroying two live handles with different slots: both slots are cleared and nothing
else changes. -/
theorem destroy_two {M : LuaState} (hwf : RegistryWF M) {k v : LuaRef}
    (hk : Live M k) (hv : Live M v) (hne : k.ref_ ≠ v.ref_) :
    RegistryWF (k.destroy (v.destroy M)) ∧
    (k.destroy (v.destroy M)).stack = M.stack ∧
    (k.destroy (v.destroy M)).tables = M.tables ∧
    (k.destroy (v.destroy M)).uindex = M.uindex ∧
    (∀ j, j ≠ k.ref_ → j ≠ v.ref_ → (k.destroy (v.destroy M)).slots j = M.slots j) := by
  obtain ⟨s1, st1, t1, u1, w1⟩ := destroy_of_live hwf hv
  have hk1 : Live (v.destroy M) k :=
    ⟨hk.1, by rw [s1, Function.update_noteq hne]; exact hk.2⟩
  obtain ⟨s2, st2, t2, u2, w2⟩ := destroy_of_live w1 hk1
  refine ⟨w2, st2.trans st1, t2.trans t1, u2.trans u1, ?_⟩
  intro j hj1 hj2
  rw [s2, Function.update_noteq hj1, s1, Function.update_noteq hj2]

/-- The copies a by-value visitor call makes of its two live arguments. -/
theorem by_value_copies {M : LuaState} (hwf : RegistryWF M) {key value : LuaRef}
    (hk : Live M key) (hv : Live M value) :
    RegistryWF (value.copy (key.copy M).2).2 ∧
    Extends M (value.copy (key.copy M).2).2 ∧
    (value.copy (key.copy M).2).2.stack = M.stack ∧
    (value.copy (key.copy M).2).2.tables = M.tables ∧
    (value.copy (key.copy M).2).2.uindex = M.uindex ∧
    Live (value.copy (key.copy M).2).2 (key.copy M).1 ∧
    Live (value.copy (key.copy M).2).2 (value.copy (key.copy M).2).1 ∧
    (key.copy M).1.value (value.copy (key.copy M).2).2 = key.value M ∧
    (value.copy (key.copy M).2).1.value (value.copy (key.copy M).2).2 = value.value M ∧
    M.slots (key.copy M).1.ref_ = LuaValue.nil ∧
    M.slots (value.copy (key.copy M).2).1.ref_ = LuaValue.nil ∧
    (key.copy M).1.ref_ ≠ (value.copy (key.copy M).2).1.ref_ := by
  obtain ⟨hst, hfresh, -, hslots, hstack, htab, hui, hwf2⟩ := copy_of_live hwf hk
  have hE1 : Extends M (key.copy M).2 := extends_of_update hfresh hslots
  have hv1 : Live (key.copy M).2 value := extends_live hE1 hv
  obtain ⟨hst', hfresh', -, hslots', hstack', htab', hui', hwf3⟩ := copy_of_live hwf2 hv1
  have hE2 : Extends (key.copy M).2 (value.copy (key.copy M).2).2 :=
    extends_of_update hfresh' hslots'
  have hkv : (key.copy M).2.slots (key.copy M).1.ref_ = M.slots key.ref_ := by
    rw [hslots, Function.update_same]
  have hk1 : Live (key.copy M).2 (key.copy M).1 := ⟨hst, by rw [hkv]; exact hk.2⟩
  have hne : (key.copy M).1.ref_ ≠ (value.copy (key.copy M).2).1.ref_ :=
    fun e => hk1.2 (e ▸ hfresh')
  have hvM : M.slots (value.copy (key.copy M).2).1.ref_ = LuaValue.nil := by
    have := hfresh'
    rw [hslots, Function.update_noteq hne.symm] at this
    exact this
  refine ⟨hwf3, extends_trans hE1 hE2, hstack'.trans hstack, htab'.trans htab,
    hui'.trans hui, extends_live hE2 hk1, ⟨hst', ?_⟩, ?_, ?_, hfresh, hvM, hne⟩
  · rw [hslots', Function.update_same]; exact hv1.2
  · show (value.copy (key.copy M).2).2.slots (key.copy M).1.ref_ = M.slots key.ref_
    rw [hE2 _ hk1.2, hkv]
  · show (value.copy (key.copy M).2).2.slots (value.copy (key.copy M).2).1.ref_
      = M.slots value.ref_
    rw [hslots', Function.update_same, hE1 _ hv.2]
theorem luaH_next_mid (pre : List (LuaValue × LuaValue)) (e : LuaValue × LuaValue)
    (post : List (LuaValue × LuaValue))
    (hnd : ((pre ++ e :: post).map Prod.fst).Nodup) :
    luaH_next (pre ++ e :: post) e.1 = some post.head? := by
  induction pre with
  | nil => simp [luaH_next]
  | cons p pre ih =>
    have hnd' : (p.1 :: (pre ++ e :: post).map Prod.fst).Nodup := by simpa using hnd
    have h2 := List.nodup_cons.mp hnd'
    have hne : p.1 ≠ e.1 := by
      intro he
      apply h2.1
      rw [he]
      simp
    simp only [List.cons_append, luaH_next, hne, if_false]
    exact ih h2.2

theorem index2value_abs (L : LuaState) (a b : LuaValue) (S : List LuaValue)
    (hs : L.stack = a :: b :: S) :
    index2value L ((S.length + 1 : Nat) : Int) = some b := by
  unfold index2value
  have h1 : (0 : Int) < ((S.length + 1 : Nat) : Int) := by omega
  rw [if_pos h1, hs]
  simp only [Int.toNat_ofNat, List.length_cons]
  rw [if_pos (by omega)]
  have : S.length + 1 + 1 - (S.length + 1) = 1 := by omega
  rw [this]
  simp

/-- The call `lua_next(state_, top)` at the head of the loop of `foreach_table`: the
table is at `top`, the previous key on top of it, `post` are the entries not yet
visited. -/
theorem lua_next_at (M : LuaState) (id : Nat) (S : List LuaValue) (kprev : LuaValue)
    (pre post : List (LuaValue × LuaValue))
    (hes : TableWF (pre ++ post)) (htab : M.tables id = pre ++ post)
    (hstack : M.stack = kprev :: LuaValue.table id :: S)
    (hk : (pre = [] ∧ kprev = LuaValue.nil) ∨ (∃ p e0, pre = p ++ [e0] ∧ kprev = e0.1)) :
    lua_next M ((S.length + 1 : Nat) : Int) =
      match post with
      | [] => Outcome.ret false { M with stack := LuaValue.table id :: S }
      | e :: _ => Outcome.ret true { M with stack := e.2 :: e.1 :: LuaValue.table id :: S } := by
  unfold lua_next
  rw [index2value_abs M _ _ S hstack]
  simp only [hstack, htab]
  rcases hk with ⟨hp, hkn⟩ | ⟨p, e0, hp, hke⟩
  · subst hp hkn
    cases post <;> simp
  · subst hp
    have hne : kprev ≠ LuaValue.nil := by
      rw [hke]
      exact (hes.2 e0 (by simp)).1
    have hnext : luaH_next (p ++ [e0] ++ post) kprev = some post.head? := by
      rw [hke]
      have := luaH_next_mid p e0 post (by simpa using hes.1)
      simpa using this
    simp only [hne, if_false, hnext]
    cases post <;> rfl
/-- The loop of `foreach_table` on a table that the visitor does not change.  `Inv pre
acc M` relates what the visitor has collected (`acc`) to the entries visited (`pre`) in
interpreter `M`; it is kept by every visitor call (`hstep`) and does not depend on slots
that are empty (`hmono`).  Then the loop, given more fuel than entries left, returns, all
entries visited, with the table alone left above the caller's stack. -/
theorem foreach_loop_spec {σ : Type} (f : σ → LuaRef → LuaRef → LuaState → Outcome σ)
    (Inv : List (LuaValue × LuaValue) → σ → LuaState → Prop)
    (id : Nat) (S : List LuaValue) (es : List (LuaValue × LuaValue)) (hes : TableWF es)
    (hmono : ∀ pre acc M M1, Inv pre acc M → Extends M M1 → Inv pre acc M1)
    (hstep : ∀ (pre post : List (LuaValue × LuaValue)) (e : LuaValue × LuaValue) (acc : σ)
      (M0 M : LuaState) (key value : LuaRef),
      es = pre ++ e :: post → RegistryWF M → Extends M0 M → Inv pre acc M0 →
      M0.slots key.ref_ = LuaValue.nil → M0.slots value.ref_ = LuaValue.nil →
      Live M key → Live M value → key.value M = e.1 → value.value M = e.2 →
      ∃ acc1 M1, f acc key value M = Outcome.ret acc1 M1 ∧ RegistryWF M1 ∧ Extends M M1 ∧
        M1.stack = M.stack ∧ M1.tables = M.tables ∧
        ∀ M2, Extends M0 M2 →
          (∀ j, j ≠ key.ref_ → j ≠ value.ref_ → M2.slots j = M1.slots j) →
          Inv (pre ++ [e]) acc1 M2) :
    ∀ (post pre : List (LuaValue × LuaValue)) (acc : σ) (M0 : LuaState) (kprev : LuaValue)
      (fuel : Nat),
      es = pre ++ post →
      ((pre = [] ∧ kprev = LuaValue.nil) ∨ (∃ p e0, pre = p ++ [e0] ∧ kprev = e0.1)) →
      RegistryWF M0 → M0.tables id = es → M0.stack = kprev :: LuaValue.table id :: S →
      Inv pre acc M0 → post.length < fuel →
      ∃ acc1 M1,
        foreach_loop f StatePtr.main (S.length + 1) fuel acc M0 = Outcome.ret acc1 M1 ∧
        Inv es acc1 M1 ∧ RegistryWF M1 ∧ Extends M0 M1 ∧ M1.tables = M0.tables ∧
        M1.stack = LuaValue.table id :: S := by
  intro post
  induction post with
  | nil =>
    intro pre acc M0 kprev fuel hsplit hk hwf htab hstack hinv hfuel
    obtain ⟨n, rfl⟩ : ∃ n, fuel = n + 1 := ⟨fuel - 1, by omega⟩
    have hnext := lua_next_at M0 id S kprev pre [] (hsplit ▸ hes) (htab.trans hsplit) hstack hk
    simp only [foreach_loop, hnext, Outcome.bind, Bool.false_eq_true, if_false]
    refine ⟨acc, _, rfl, ?_, ⟨hwf.1, hwf.2, hwf.3, hwf.4⟩, fun _ _ => rfl, rfl, rfl⟩
    have : es = pre := by simpa using hsplit
    rw [this]
    exact hmono _ _ _ _ hinv (fun _ _ => rfl)
  | cons e post ih =>
    intro pre acc M0 kprev fuel hsplit hk hwf htab hstack hinv hfuel
    obtain ⟨n, rfl⟩ : ∃ n, fuel = n + 1 := ⟨fuel - 1, by simp at hfuel; omega⟩
    have hnext := lua_next_at M0 id S kprev pre (e :: post) (hsplit ▸ hes)
      (htab.trans hsplit) hstack hk
    have hemem : e ∈ es := by rw [hsplit]; simp
    have hene := hes.2 e hemem
    -- the state after `lua_next`
    have hwf1 : RegistryWF { M0 with stack := e.2 :: e.1 :: LuaValue.table id :: S } :=
      ⟨hwf.1, hwf.2, hwf.3, hwf.4⟩
    have hst1 : ({ M0 with stack := e.2 :: e.1 :: LuaValue.table id :: S } : LuaState).stack
        = e.2 :: e.1 :: LuaValue.table id :: S := rfl
    have spv := fromStackTop_spec hwf1 hst1 hene.2
    simp only [foreach_loop, hnext, Outcome.bind, if_true]
    generalize fromStackTop StatePtr.main
      { M0 with stack := e.2 :: e.1 :: LuaValue.table id :: S } = value at spv ⊢
    obtain ⟨vst, vfresh, vslots, vstack, vtab, -, vwf⟩ := spv
    have vfresh0 : M0.slots value.1.ref_ = LuaValue.nil := vfresh
    have hwf3 : RegistryWF (lua_pushvalue value.2 (-1)) := ⟨vwf.1, vwf.2, vwf.3, vwf.4⟩
    have hst3 : (lua_pushvalue value.2 (-1)).stack
        = e.1 :: e.1 :: LuaValue.table id :: S := by
      simp [lua_pushvalue, index2value, vstack]
    have spk := fromStackTop_spec hwf3 hst3 hene.1
    generalize fromStackTop StatePtr.main (lua_pushvalue value.2 (-1)) = key at spk ⊢
    obtain ⟨kst, kfresh, kslots, kstack, ktab, -, kwf⟩ := spk
    have kslots' : key.2.slots = Function.update value.2.slots key.1.ref_ e.1 := kslots
    have kfresh' : value.2.slots key.1.ref_ = LuaValue.nil := kfresh
    have hvlive1 : value.2.slots value.1.ref_ = e.2 := by
      rw [vslots, Function.update_same]
    have hkv : key.1.ref_ ≠ value.1.ref_ := by
      intro he
      rw [he, hvlive1] at kfresh'
      exact hene.2 kfresh'
    have kfresh0 : M0.slots key.1.ref_ = LuaValue.nil := by
      have := kfresh'
      rw [vslots, Function.update_noteq hkv] at this
      exact this
    have hE1 : Extends M0 value.2 := extends_of_update vfresh0 vslots
    have hE2 : Extends value.2 key.2 := extends_of_update kfresh' kslots'
    have hE : Extends M0 key.2 := extends_trans hE1 hE2
    have hklive : Live key.2 key.1 :=
      ⟨kst, by rw [kslots', Function.update_same]; exact hene.1⟩
    have hvlive : Live key.2 value.1 :=
      extends_live hE2 ⟨vst, by rw [hvlive1]; exact hene.2⟩
    have hkval : key.1.value key.2 = e.1 := by
      show key.2.slots key.1.ref_ = e.1
      rw [kslots', Function.update_same]
    have hvval : value.1.value key.2 = e.2 := by
      show key.2.slots value.1.ref_ = e.2
      rw [kslots', Function.update_noteq hkv.symm, hvlive1]
    obtain ⟨acc1, M1, hf, hwfM1, hEM1, hstM1, htabM1, hpost⟩ :=
      hstep pre post e acc M0 key.2 key.1 value.1 hsplit kwf hE hinv kfresh0 vfresh0
        hklive hvlive hkval hvval
    rw [hf]
    simp only
    have hk1 : Live M1 key.1 := extends_live hEM1 hklive
    have hv1 : Live M1 value.1 := extends_live hEM1 hvlive
    obtain ⟨dwf, dstack, dtab, -, dslots⟩ := destroy_two hwfM1 hv1 hk1 hkv.symm
    have hEd : Extends M0 (value.1.destroy (key.1.destroy M1)) := by
      intro j hj
      have hj1 : j ≠ value.1.ref_ := fun he => hj (he ▸ vfresh0)
      have hj2 : j ≠ key.1.ref_ := fun he => hj (he ▸ kfresh0)
      rw [dslots j hj1 hj2, hEM1 j (by rw [hE j hj]; exact hj), hE j hj]
    have hinv2 := hpost _ hEd (fun j h1 h2 => dslots j h2 h1)
    have htabs : (value.1.destroy (key.1.destroy M1)).tables = M0.tables := by
      rw [dtab, htabM1, ktab]
      show value.2.tables = M0.tables
      rw [vtab]
    have hstk : (value.1.destroy (key.1.destroy M1)).stack
        = e.1 :: LuaValue.table id :: S := by
      rw [dstack, hstM1, kstack]
    obtain ⟨acc2, M2, hloop, hinvf, hwff, hEf, htabf, hstf⟩ :=
      ih (pre ++ [e]) acc1 (value.1.destroy (key.1.destroy M1)) e.1 n
        (by rw [hsplit]; simp) (Or.inr ⟨pre, e, rfl, rfl⟩) dwf (htabs ▸ htab) hstk hinv2
        (by simp at hfuel; omega)
    exact ⟨acc2, M2, hloop, hinvf, hwff, extends_trans hEd hEf, htabf.trans htabs, hstf⟩
theorem denotes_extends {M M1 : LuaState} {acc : List LuaRef} {vals : List LuaValue}
    (h : Denotes M acc vals) (hE : Extends M M1) : Denotes M1 acc vals := by
  refine ⟨?_, fun c hc => extends_live hE (h.2 c hc)⟩
  rw [← h.1]
  apply List.map_congr_left
  intro c hc
  exact hE _ (h.2 c hc).2

/-- The statement `foreach_table(f)` on a handle that owns a table the visitor does not
change: with more fuel than the table has entries it returns, every entry visited, the
stack and the tables as before. -/
theorem foreach_table_spec {σ : Type} (f : σ → LuaRef → LuaRef → LuaState → Outcome σ)
    (Inv : List (LuaValue × LuaValue) → σ → LuaState → Prop)
    (L : LuaState) (r : LuaRef) (id : Nat) (hwf : RegistryWF L) (hr : Live L r)
    (hv : r.value L = LuaValue.table id) (hes : TableWF (L.tables id))
    (hmono : ∀ pre acc M M1, Inv pre acc M → Extends M M1 → Inv pre acc M1)
    (hstep : ∀ (pre post : List (LuaValue × LuaValue)) (e : LuaValue × LuaValue) (acc : σ)
      (M0 M : LuaState) (key value : LuaRef),
      L.tables id = pre ++ e :: post → RegistryWF M → Extends M0 M → Inv pre acc M0 →
      M0.slots key.ref_ = LuaValue.nil → M0.slots value.ref_ = LuaValue.nil →
      Live M key → Live M value → key.value M = e.1 → value.value M = e.2 →
      ∃ acc1 M1, f acc key value M = Outcome.ret acc1 M1 ∧ RegistryWF M1 ∧ Extends M M1 ∧
        M1.stack = M.stack ∧ M1.tables = M.tables ∧
        ∀ M2, Extends M0 M2 →
          (∀ j, j ≠ key.ref_ → j ≠ value.ref_ → M2.slots j = M1.slots j) →
          Inv (pre ++ [e]) acc1 M2)
    (acc : σ) (hinv : Inv [] acc L) (fuel : Nat) (hfuel : (L.tables id).length < fuel) :
    ∃ acc1 L1, foreach_table fuel f acc r L = Outcome.ret acc1 L1 ∧
      Inv (L.tables id) acc1 L1 ∧ RegistryWF L1 ∧ Extends L L1 ∧ L1.tables = L.tables ∧
      L1.stack = L.stack := by
  have hpos := live_ref_pos hwf hr
  have hnn : r.ref_ ≠ LUA_REFNIL := by simp [LUA_REFNIL]; omega
  have hv' : L.slots r.ref_ = LuaValue.table id := hv
  have hty : lua_type (lua_rawgeti L r.ref_) (-1) = LUA_TTABLE := by
    simp [lua_type, lua_rawgeti, index2value_top, hv', LuaValue.ttype]
  have hwf2 : RegistryWF (lua_pushnil (lua_rawgeti L r.ref_)) := ⟨hwf.1, hwf.2, hwf.3, hwf.4⟩
  have hstk : (lua_pushnil (lua_rawgeti L r.ref_)).stack
      = LuaValue.nil :: LuaValue.table id :: L.stack := by
    simp [lua_pushnil, lua_rawgeti, hv']
  obtain ⟨acc1, M1, hloop, hinvf, hwff, hEf, htabf, hstf⟩ :=
    foreach_loop_spec f Inv id L.stack (L.tables id) hes hmono hstep (L.tables id) [] acc
      (lua_pushnil (lua_rawgeti L r.ref_)) LuaValue.nil fuel rfl (Or.inl ⟨rfl, rfl⟩) hwf2 rfl
      hstk (hmono _ _ _ _ hinv (fun _ _ => rfl)) hfuel
  have htop : lua_gettop (lua_rawgeti L r.ref_) = L.stack.length + 1 := rfl
  have hset : lua_settop M1 (lua_gettop L) = { M1 with stack := L.stack } := by
    have h1 : M1 = { M1 with stack := [LuaValue.table id] ++ L.stack } := by
      cases M1; simp only at hstf; subst hstf; rfl
    rw [h1]
    exact lua_settop_restore { M1 with stack := L.stack } [LuaValue.table id]
  have hEs : Extends M1 (lua_settop M1 (lua_gettop L)) := by
    rw [hset]; exact fun _ _ => rfl
  refine ⟨acc1, lua_settop M1 (lua_gettop L), ?_, hmono _ _ _ _ hinvf hEs,
    ?_, extends_trans (fun _ _ => rfl) (extends_trans hEf hEs), ?_, ?_⟩
  · unfold foreach_table
    rw [if_neg hnn, hr.1]
    simp only [hty, ne_eq, not_true_eq_false, false_and, if_false, htop, hloop,
      ScopedSavedStack, Outcome.finally]
  · rw [hset]
    exact ⟨hwff.1, hwff.2, hwff.3, hwff.4⟩
  · rw [hset]
    exact htabf
  · rw [hset]
/-- One call of a by-value visitor that appends a copy of one of its two parameters to a
vector (`b` chooses the key, otherwise the value): the vector gains a handle on a slot
that was empty, denoting the chosen value; the stack, the tables and every owned slot
stay as they were. -/
theorem collect_step (b : Bool) (acc : List LuaRef) {M : LuaState} (hwf : RegistryWF M)
    {key value : LuaRef} (hk : Live M key) (hv : Live M value) :
    ∃ c M1,
      by_value (fun v_ k v L =>
          Outcome.ret (v_ ++ [((cond b k v).copy L).1]) ((cond b k v).copy L).2)
        acc key value M = Outcome.ret (acc ++ [c]) M1 ∧
      RegistryWF M1 ∧ Extends M M1 ∧ M1.stack = M.stack ∧ M1.tables = M.tables ∧
      M.slots c.ref_ = LuaValue.nil ∧ c.ref_ ≠ key.ref_ ∧ c.ref_ ≠ value.ref_ ∧
      Live M1 c ∧ c.value M1 = (cond b key value).value M := by
  obtain ⟨wf2, E2, st2, tab2, -, lk, lv, vk, vv, fk, fv, hne⟩ := by_value_copies hwf hk hv
  unfold by_value
  dsimp only
  generalize (key.copy M).1 = k1 at *
  generalize (value.copy (key.copy M).2).1 = v1 at *
  generalize (value.copy (key.copy M).2).2 = M2 at *
  have hpl : Live M2 (cond b k1 v1) := by cases b <;> assumption
  have hpv : (cond b k1 v1).value M2 = (cond b key value).value M := by
    cases b <;> assumption
  obtain ⟨cst, cfresh, -, cslots, cstack, ctab, -, wf3⟩ := copy_of_live wf2 hpl
  generalize ((cond b k1 v1).copy M2).2 = M3 at *
  generalize ((cond b k1 v1).copy M2).1 = c at *
  have E3 : Extends M2 M3 := extends_of_update cfresh cslots
  obtain ⟨dwf, dstack, dtab, -, dslots⟩ :=
    destroy_two wf3 (extends_live E3 lk) (extends_live E3 lv) hne
  have hck : c.ref_ ≠ k1.ref_ := fun e => lk.2 (e ▸ cfresh)
  have hcv : c.ref_ ≠ v1.ref_ := fun e => lv.2 (e ▸ cfresh)
  have hcval : M3.slots c.ref_ = M2.slots (cond b k1 v1).ref_ := by
    rw [cslots, Function.update_same]
  have hcM : M.slots c.ref_ = LuaValue.nil := by
    by_contra h
    have := E2 _ h
    rw [cfresh] at this
    exact h this.symm
  refine ⟨c, k1.destroy (v1.destroy M3), rfl, dwf, ?_, ?_, ?_, hcM, ?_, ?_, ⟨cst, ?_⟩, ?_⟩
  · intro j hj
    have hj1 : j ≠ k1.ref_ := fun e => hj (e ▸ fk)
    have hj2 : j ≠ v1.ref_ := fun e => hj (e ▸ fv)
    rw [dslots j hj1 hj2, E3 j (by rw [E2 j hj]; exact hj), E2 j hj]
  · rw [dstack, cstack, st2]
  · rw [dtab, ctab, tab2]
  · exact fun e => hk.2 (e ▸ hcM)
  · exact fun e => hv.2 (e ▸ hcM)
  · rw [dslots _ hck hcv, hcval]; exact hpl.2
  · show (k1.destroy (v1.destroy M3)).slots c.ref_ = _
    rw [dslots _ hck hcv, hcval]; exact hpv

/-- The visitor steps of `keys()` and `values()` keep the invariant of the traversal:
the vector denotes the chosen component of every entry visited so far. -/
theorem collect_foreach (b : Bool) (L : LuaState) (r : LuaRef) (id : Nat)
    (hwf : RegistryWF L) (hr : Live L r)
    (hv : r.value L = LuaValue.table id) (hes : TableWF (L.tables id))
    (fuel : Nat) (hfuel : (L.tables id).length < fuel) :
    ∃ acc L1,
      foreach_table fuel
        (by_value (fun v_ k v L =>
          Outcome.ret (v_ ++ [((cond b k v).copy L).1]) ((cond b k v).copy L).2))
        [] r L = Outcome.ret acc L1 ∧
      Denotes L1 acc ((L.tables id).map (fun e => cond b e.1 e.2)) ∧
      RegistryWF L1 ∧ Extends L L1 ∧ L1.tables = L.tables ∧ L1.stack = L.stack := by
  apply foreach_table_spec _
    (fun pre acc M => Denotes M acc (pre.map (fun e => cond b e.1 e.2))) L r id hwf hr hv hes
  · intro pre acc M M1 h hE
    exact denotes_extends h hE
  · intro pre post e acc M0 M key value hsplit hwfM hE hinv kf vf hk hv hkv hvv
    obtain ⟨c, M1, hf, wf1, E1, st1, tab1, cfresh, hck, hcv, cl, cv⟩ :=
      collect_step b acc hwfM hk hv
    refine ⟨acc ++ [c], M1, hf, wf1, E1, st1, tab1, ?_⟩
    intro M2 hE2 hagree
    have hemem : e ∈ L.tables id := by rw [hsplit]; simp
    have hene := hes.2 e hemem
    have hcs : M2.slots c.ref_ = cond b e.1 e.2 := by
      rw [hagree _ hck hcv]
      have : c.value M1 = (cond b key value).value M := cv
      have h2 : (cond b key value).value M = cond b e.1 e.2 := by
        cases b
        · exact hvv
        · exact hkv
      exact this.trans h2
    have hold := denotes_extends hinv hE2
    refine ⟨?_, ?_⟩
    · simp only [List.map_append, List.map_cons, List.map_nil]
      rw [hold.1, show LuaRef.value M2 c = _ from hcs]
    · intro x hx
      rcases List.mem_append.mp hx with hx | hx
      · exact hold.2 x hx
      · have : x = c := by simpa using hx
        subst this
        refine ⟨cl.1, ?_⟩
        rw [hcs]
        cases b
        · exact hene.2
        · exact hene.1
  · exact ⟨rfl, fun _ h => by simp at h⟩
  · exact hfuel
theorem operator_lt_live {M : LuaState} {a b : LuaRef} (ha : Live M a) (hb : Live M b)
    {c : Bool} (hc : luaV_lessthan (a.value M) (b.value M) = some c) :
    operator_lt a b M = Outcome.ret c M := by
  unfold operator_lt
  rw [compare_with_main _ a b M ha.1 hb.1]
  have : luaV_compare CompareOp.LUA_OPLT (M.slots a.ref_) (M.slots b.ref_) = some c := hc
  rw [this]

/-- The statement `m_[key] = value` when `key` is strictly ordered against every key in
the map: a node with copies of `key` and `value`, on slots that were empty, is put at the
position the native order gives; the old nodes, the stack and the tables are untouched. -/
theorem map_subscript_assign_spec (m : List (LuaRef × LuaRef)) {M : LuaState}
    (hwf : RegistryWF M) {key value : LuaRef} (hk : Live M key) (hv : Live M value)
    (hm : ∀ n ∈ m, Live M n.1)
    (hord : ∀ n ∈ m, StrictlyOrdered (n.1.value M) (key.value M)) :
    ∃ m1 m2 kn vn M1,
      map_subscript_assign m key value M = Outcome.ret (m1 ++ (kn, vn) :: m2) M1 ∧
      m = m1 ++ m2 ∧
      map_insert (key.value M) (value.value M) (m.map (deref2 M))
        = m1.map (deref2 M) ++ (key.value M, value.value M) :: m2.map (deref2 M) ∧
      RegistryWF M1 ∧ Extends M M1 ∧ M1.stack = M.stack ∧ M1.tables = M.tables ∧
      M.slots kn.ref_ = LuaValue.nil ∧ M.slots vn.ref_ = LuaValue.nil ∧
      Live M1 kn ∧ Live M1 vn ∧ kn.value M1 = key.value M ∧ vn.value M1 = value.value M := by
  have hins : ∃ kn vn M1,
      (Outcome.ret [((key.copy M).1, (assign mk_default value (key.copy M).2).1)]
        (assign mk_default value (key.copy M).2).2 : Outcome (List (LuaRef × LuaRef)))
        = Outcome.ret [(kn, vn)] M1 ∧
      ((key.copy M).1, (assign mk_default value (key.copy M).2).1) = (kn, vn) ∧
      (assign mk_default value (key.copy M).2).2 = M1 ∧
      RegistryWF M1 ∧ Extends M M1 ∧ M1.stack = M.stack ∧ M1.tables = M.tables ∧
      M.slots kn.ref_ = LuaValue.nil ∧ M.slots vn.ref_ = LuaValue.nil ∧
      Live M1 kn ∧ Live M1 vn ∧ kn.value M1 = key.value M ∧ vn.value M1 = value.value M := by
    have hnil : mk_default.is_nilref = true := rfl
    rw [assign_nil_eq_copy hnil]
    obtain ⟨wf2, E2, st2, tab2, -, lk, lv, vk, vv, fk, fv, -⟩ := by_value_copies hwf hk hv
    exact ⟨_, _, _, rfl, rfl, rfl, wf2, E2, st2, tab2, fk, fv, lk, lv, vk, vv⟩
  induction m with
  | nil =>
    obtain ⟨kn, vn, M1, -, e1, e2, rest⟩ := hins
    refine ⟨[], [], kn, vn, M1, ?_, rfl, rfl, rest⟩
    simp only [map_subscript_assign, List.nil_append]
    rw [e2, e1]
  | cons n tl ih =>
    have hn := hord n (by simp)
    have hnl := hm n (by simp)
    rcases hn with hlt | ⟨hnlt, hgt⟩
    · obtain ⟨m1, m2, kn, vn, M1, hrun, hsplit, hval, rest⟩ :=
        ih (fun x hx => hm x (by simp [hx])) (fun x hx => hord x (by simp [hx]))
      refine ⟨n :: m1, m2, kn, vn, M1, ?_, by simp [hsplit], ?_, rest⟩
      · simp only [map_subscript_assign, operator_lt_live hnl hk hlt, Outcome.bind, if_true,
          hrun, List.cons_append]
      · simp only [List.map_cons, map_insert, deref2, hlt, if_true, List.cons_append]
        have := hval
        simp only [deref2] at this
        rw [this]
    · obtain ⟨kn, vn, M1, -, e1, e2, rest⟩ := hins
      refine ⟨[], n :: tl, kn, vn, M1, ?_, rfl, ?_, rest⟩
      · simp only [map_subscript_assign, operator_lt_live hnl hk hnlt,
          operator_lt_live hk hnl hgt, Outcome.bind, Bool.false_eq_true, if_false, if_true,
          List.nil_append]
        rw [e2]
        have e3 := congrArg Prod.fst e1
        have e4 := congrArg Prod.snd e1
        simp only at e3 e4
        rw [e3, e4]
      · simp [List.map_cons, map_insert, deref2, hnlt, hgt]
theorem strictlyOrdered_of_numbers (a b : Int) (h : a ≠ b) :
    StrictlyOrdered (LuaValue.number a) (LuaValue.number b) := by
  unfold StrictlyOrdered
  simp only [luaV_lessthan, Option.some.injEq, decide_eq_true_eq, decide_eq_false_iff_not]
  omega

theorem strictlyOrdered_of_strings (a b : String) (h : a ≠ b) :
    StrictlyOrdered (LuaValue.string a) (LuaValue.string b) := by
  unfold StrictlyOrdered
  simp only [luaV_lessthan, Option.some.injEq, decide_eq_true_eq, decide_eq_false_iff_not]
  rcases lt_trichotomy a b with h1 | h1 | h1
  · exact Or.inl h1
  · exact absurd h1 h
  · exact Or.inr ⟨not_lt.mpr (le_of_lt h1), h1⟩

theorem strictlyOrdered_of_comparable {es : List (LuaValue × LuaValue)}
    (hc : KeysComparable es) {e1 e2 : LuaValue × LuaValue} (h1 : e1 ∈ es) (h2 : e2 ∈ es)
    (hne : e1.1 ≠ e2.1) : StrictlyOrdered e1.1 e2.1 := by
  rcases hc with hc | hc
  · obtain ⟨a, ha⟩ := hc e1 h1
    obtain ⟨b, hb⟩ := hc e2 h2
    rw [ha, hb] at hne ⊢
    exact strictlyOrdered_of_numbers a b (fun e => hne (by rw [e]))
  · obtain ⟨a, ha⟩ := hc e1 h1
    obtain ⟨b, hb⟩ := hc e2 h2
    rw [ha, hb] at hne ⊢
    exact strictlyOrdered_of_strings a b (fun e => hne (by rw [e]))

theorem map_insert_perm (k v : LuaValue) (m : List (LuaValue × LuaValue))
    (hord : ∀ n ∈ m, StrictlyOrdered n.1 k) :
    (map_insert k v m).Perm ((k, v) :: m) := by
  induction m with
  | nil => exact List.Perm.refl _
  | cons n tl ih =>
    rcases hord n (by simp) with hlt | ⟨hnlt, hgt⟩
    · simp only [map_insert, hlt, if_true]
      exact ((ih (fun x hx => hord x (by simp [hx]))).cons n).trans (List.Perm.swap _ _ _)
    · simp [map_insert, hnlt, hgt]

theorem insert_all_snoc (pre : List (LuaValue × LuaValue)) (e : LuaValue × LuaValue) :
    insert_all (pre ++ [e]) = map_insert e.1 e.2 (insert_all pre) := by
  simp [insert_all, List.foldl_append]

/-- Inserting the entries of a table with unique, mutually comparable keys one by one
gives a map with exactly the entries of the table. -/
theorem insert_all_perm (es : List (LuaValue × LuaValue)) (hc : KeysComparable es)
    (hnd : (es.map Prod.fst).Nodup) : (insert_all es).Perm es := by
  induction es using List.reverseRecOn with
  | nil => exact List.Perm.refl _
  | append_singleton pre e ih =>
    have hc' : KeysComparable pre := by
      rcases hc with h | h
      · exact Or.inl (fun x hx => h x (by simp [hx]))
      · exact Or.inr (fun x hx => h x (by simp [hx]))
    have hnd2 : (pre.map Prod.fst ++ [e.1]).Nodup := by simpa using hnd
    have hnd' : (pre.map Prod.fst).Nodup := (List.nodup_append.mp hnd2).1
    have hp := ih hc' hnd'
    rw [insert_all_snoc]
    have hord : ∀ n ∈ insert_all pre, StrictlyOrdered n.1 e.1 := by
      intro n hn
      have hn' : n ∈ pre := hp.subset hn
      apply strictlyOrdered_of_comparable hc (by simp [hn']) (by simp)
      intro heq
      have hdis := (List.nodup_append.mp hnd2).2.2
      exact hdis (List.mem_map_of_mem Prod.fst hn') (by simp [heq])
    refine (map_insert_perm e.1 e.2 _ hord).trans ?_
    exact ((hp.cons e).trans (List.perm_append_singleton e pre).symm)
theorem denotesMap_extends {M M1 : LuaState} {m : List (LuaRef × LuaRef)}
    {vals : List (LuaValue × LuaValue)} (h : DenotesMap M m vals) (hE : Extends M M1) :
    DenotesMap M1 m vals := by
  refine ⟨?_, fun n hn => ⟨extends_live hE (h.2 n hn).1, extends_live hE (h.2 n hn).2⟩⟩
  rw [← h.1]
  apply List.map_congr_left
  intro n hn
  unfold deref2 LuaRef.value
  rw [hE _ (h.2 n hn).1.2, hE _ (h.2 n hn).2.2]

/-- One call of the by-value visitor of `map()` on an entry whose key is new to the map
and comparable with the keys in it. -/
theorem gettablemap_step (acc : List (LuaRef × LuaRef)) {M : LuaState} (hwf : RegistryWF M)
    {key value : LuaRef} (hk : Live M key) (hv : Live M value)
    {vals : List (LuaValue × LuaValue)} (hacc : DenotesMap M acc vals)
    (hord : ∀ p ∈ vals, StrictlyOrdered p.1 (key.value M)) :
    ∃ m1 m2 kn vn M1,
      by_value gettablemap acc key value M = Outcome.ret (m1 ++ (kn, vn) :: m2) M1 ∧
      acc = m1 ++ m2 ∧
      map_insert (key.value M) (value.value M) vals
        = m1.map (deref2 M) ++ (key.value M, value.value M) :: m2.map (deref2 M) ∧
      RegistryWF M1 ∧ Extends M M1 ∧ M1.stack = M.stack ∧ M1.tables = M.tables ∧
      M.slots kn.ref_ = LuaValue.nil ∧ M.slots vn.ref_ = LuaValue.nil ∧
      Live M1 kn ∧ Live M1 vn ∧ kn.value M1 = key.value M ∧ vn.value M1 = value.value M := by
  obtain ⟨wf2, E2, st2, tab2, -, lk, lv, vk, vv, fk, fv, hne⟩ := by_value_copies hwf hk hv
  unfold by_value gettablemap
  generalize (key.copy M).1 = k1 at *
  generalize (value.copy (key.copy M).2).1 = v1 at *
  generalize (value.copy (key.copy M).2).2 = M2 at *
  have hacc2 := denotesMap_extends hacc E2
  have hord2 : ∀ n ∈ acc, StrictlyOrdered (n.1.value M2) (k1.value M2) := by
    intro n hn
    rw [vk]
    have : deref2 M2 n ∈ vals := by
      rw [← hacc2.1]
      exact List.mem_map_of_mem _ hn
    exact hord _ this
  obtain ⟨m1, m2, kn, vn, M3, hrun, hsplit, hval, wf3, E3, st3, tab3, kf, vf, kl, vl, kv, vv3⟩ :=
    map_subscript_assign_spec acc wf2 lk lv (fun n hn => (hacc2.2 n hn).1) hord2
  obtain ⟨dwf, dstack, dtab, -, dslots⟩ :=
    destroy_two wf3 (extends_live E3 lk) (extends_live E3 lv) hne
  have hknk : kn.ref_ ≠ k1.ref_ := fun e => lk.2 (e ▸ kf)
  have hknv : kn.ref_ ≠ v1.ref_ := fun e => lv.2 (e ▸ kf)
  have hvnk : vn.ref_ ≠ k1.ref_ := fun e => lk.2 (e ▸ vf)
  have hvnv : vn.ref_ ≠ v1.ref_ := fun e => lv.2 (e ▸ vf)
  have nil_of {j : Int} (h : M2.slots j = LuaValue.nil) : M.slots j = LuaValue.nil := by
    by_contra hc
    have := E2 _ hc
    rw [h] at this
    exact hc this.symm
  have hmap : ∀ l : List (LuaRef × LuaRef), (∀ n ∈ l, n ∈ acc) →
      l.map (deref2 M2) = l.map (deref2 M) := by
    intro l hl
    apply List.map_congr_left
    intro n hn
    have hnl := hacc.2 n (hl n hn)
    unfold deref2 LuaRef.value
    rw [E2 _ hnl.1.2, E2 _ hnl.2.2]
  refine ⟨m1, m2, kn, vn, k1.destroy (v1.destroy M3), ?_, hsplit, ?_, dwf, ?_, ?_, ?_,
    nil_of kf, nil_of vf, ⟨kl.1, ?_⟩, ⟨vl.1, ?_⟩, ?_, ?_⟩
  · rw [hrun]; rfl
  · have h1 := hval
    rw [vk, vv, hacc2.1] at h1
    rw [h1, hmap m1 (fun n hn => by rw [hsplit]; simp [hn]),
      hmap m2 (fun n hn => by rw [hsplit]; simp [hn])]
  · intro j hj
    have hj1 : j ≠ k1.ref_ := fun e => hj (e ▸ fk)
    have hj2 : j ≠ v1.ref_ := fun e => hj (e ▸ fv)
    rw [dslots j hj1 hj2, E3 j (by rw [E2 j hj]; exact hj), E2 j hj]
  · rw [dstack, st3, st2]
  · rw [dtab, tab3, tab2]
  · rw [dslots _ hknk hknv]; exact kl.2
  · rw [dslots _ hvnk hvnv]; exact vl.2
  · show (k1.destroy (v1.destroy M3)).slots kn.ref_ = _
    rw [dslots _ hknk hknv]
    exact kv.trans vk
  · show (k1.destroy (v1.destroy M3)).slots vn.ref_ = _
    rw [dslots _ hvnk hvnv]
    exact vv3.trans vv
/-- The call `map()` on a handle that owns a table with mutually comparable keys: with
more fuel than entries it returns a map whose nodes denote the result of inserting the
entries one by one. -/
theorem map_foreach (L : LuaState) (r : LuaRef) (id : Nat)
    (hwf : RegistryWF L) (hr : Live L r)
    (hv : r.value L = LuaValue.table id) (hes : TableWF (L.tables id))
    (hc : KeysComparable (L.tables id))
    (fuel : Nat) (hfuel : (L.tables id).length < fuel) :
    ∃ m L1, LuaRef.map fuel r L = Outcome.ret m L1 ∧
      DenotesMap L1 m (insert_all (L.tables id)) ∧
      RegistryWF L1 ∧ Extends L L1 ∧ L1.tables = L.tables ∧ L1.stack = L.stack := by
  apply foreach_table_spec _
    (fun pre acc M => DenotesMap M acc (insert_all pre)) L r id hwf hr hv hes
  · intro pre acc M M1 h hE
    exact denotesMap_extends h hE
  · intro pre post e acc M0 M key value hsplit hwfM hE hinv kf vf hk hv hkv hvv
    have hcpre : KeysComparable pre := by
      rcases hc with h | h
      · exact Or.inl (fun x hx => h x (by rw [hsplit]; simp [hx]))
      · exact Or.inr (fun x hx => h x (by rw [hsplit]; simp [hx]))
    have hnd : ((pre ++ e :: post).map Prod.fst).Nodup := hsplit ▸ hes.1
    have hnd2 : (pre.map Prod.fst ++ e.1 :: post.map Prod.fst).Nodup := by simpa using hnd
    have hndpre : (pre.map Prod.fst).Nodup := (List.nodup_append.mp hnd2).1
    have hperm := insert_all_perm pre hcpre hndpre
    have hord : ∀ p ∈ insert_all pre, StrictlyOrdered p.1 (key.value M) := by
      intro p hp
      have hp' : p ∈ pre := hperm.subset hp
      rw [hkv]
      apply strictlyOrdered_of_comparable hc (by rw [hsplit]; simp [hp'])
        (by rw [hsplit]; simp)
      intro heq
      have hdis := (List.nodup_append.mp hnd2).2.2
      exact hdis (List.mem_map_of_mem Prod.fst hp') (by simp [heq])
    obtain ⟨m1, m2, kn, vn, M1, hrun, hsplit2, hval, wf1, E1, st1, tab1, knil, vnil, kl, vl,
        kv, vv⟩ := gettablemap_step acc hwfM hk hv (denotesMap_extends hinv hE) hord
    refine ⟨_, M1, hrun, wf1, E1, st1, tab1, ?_⟩
    intro M2 hE2 hagree
    have hold := denotesMap_extends hinv hE2
    have holdM := denotesMap_extends hinv hE
    have hkn1 : kn.ref_ ≠ key.ref_ := fun e => hk.2 (e ▸ knil)
    have hkn2 : kn.ref_ ≠ value.ref_ := fun e => hv.2 (e ▸ knil)
    have hvn1 : vn.ref_ ≠ key.ref_ := fun e => hk.2 (e ▸ vnil)
    have hvn2 : vn.ref_ ≠ value.ref_ := fun e => hv.2 (e ▸ vnil)
    have hks : M2.slots kn.ref_ = e.1 := by
      rw [hagree _ hkn1 hkn2]
      exact kv.trans hkv
    have hvs : M2.slots vn.ref_ = e.2 := by
      rw [hagree _ hvn1 hvn2]
      exact vv.trans hvv
    have hemem : e ∈ L.tables id := by rw [hsplit]; simp
    have hene := hes.2 e hemem
    have hsame : ∀ l : List (LuaRef × LuaRef), (∀ n ∈ l, n ∈ acc) →
        l.map (deref2 M2) = l.map (deref2 M) := by
      intro l hl
      apply List.map_congr_left
      intro n hn
      have hnl := hinv.2 n (hl n hn)
      unfold deref2 LuaRef.value
      rw [hE2 _ hnl.1.2, hE2 _ hnl.2.2, hE _ hnl.1.2, hE _ hnl.2.2]
    refine ⟨?_, ?_⟩
    · rw [insert_all_snoc, ← hkv, ← hvv, hval]
      simp only [List.map_append, List.map_cons]
      rw [hsame m1 (fun n hn => by rw [hsplit2]; simp [hn]),
        hsame m2 (fun n hn => by rw [hsplit2]; simp [hn])]
      congr 2
      unfold deref2 LuaRef.value
      rw [hks, hvs]
      exact Prod.ext hkv.symm hvv.symm
    · intro n hn
      rcases List.mem_append.mp hn with h | h
      · exact hold.2 n (by rw [hsplit2]; simp [h])
      · rcases List.mem_cons.mp h with h | h
        · subst h
          exact ⟨⟨kl.1, by rw [hks]; exact hene.1⟩, ⟨vl.1, by rw [hvs]; exact hene.2⟩⟩
        · exact hold.2 n (by rw [hsplit2]; simp [h])
  · exact ⟨rfl, fun _ h => by simp at h⟩
  · exact hfuel
theorem luaH_get_of_mem (es : List (LuaValue × LuaValue)) (hnd : (es.map Prod.fst).Nodup)
    (e : LuaValue × LuaValue) (he : e ∈ es) : luaH_get es e.1 = e.2 := by
  induction es with
  | nil => simp at he
  | cons x tl ih =>
    have hnd' : (x.1 :: tl.map Prod.fst).Nodup := by simpa using hnd
    have h2 := List.nodup_cons.mp hnd'
    rcases List.mem_cons.mp he with h | h
    · subst h
      simp [luaH_get]
    · have hne : x.1 ≠ e.1 := by
        intro heq
        exact h2.1 (heq ▸ List.mem_map_of_mem Prod.fst h)
      have := ih h2.2 h
      unfold luaH_get at this ⊢
      simp only [List.find?_cons, hne, decide_False]
      exact this

theorem L_tab_wf : RegistryWF L_tab :=
  (fromStackTop_spec (L := pushvalue L_new (LuaValue.table 1))
    ⟨L_new_wf.1, L_new_wf.2, L_new_wf.3, L_new_wf.4⟩ rfl (by simp)).2.2.2.2.2.2

theorem L_tab_table : L_tab.tables 1 =
    [(LuaValue.number 10, LuaValue.string "x"), (LuaValue.number 20, LuaValue.string "y")] := by
  decide

theorem L_tab_tableWF : TableWF (L_tab.tables 1) := by
  rw [L_tab_table]
  refine ⟨by decide, ?_⟩
  intro e he
  simp only [List.mem_cons, List.mem_singleton, List.not_mem_nil, or_false] at he
  rcases he with rfl | rfl <;> simp

/-- C8 (iteration is complete and duplicate-free).  Let `r` own a table with id `id`
whose entries are `L.tables id` in enumeration order.  With more fuel than entries,
`keys()` and then `values()` return; both vectors have as many elements as the table has
entries; the handles of `keys()` denote the keys of the table in enumeration order, so
every key occurs exactly once; the i-th handle of `values()` denotes the table's value at
the key the i-th handle of `keys()` denotes; and the stack and the tables are as before.
When the keys are all numbers or all strings, `map()` returns a map whose nodes denote
exactly the entries of the table; for a table with the entries `10 -> "x"` and
`20 -> "y"` in either order the map denotes `[(10, "x"), (20, "y")]`. -/
theorem iteration_complete (L : LuaState) (r : LuaRef) (id : Nat)
    (hwf : RegistryWF L) (hr : Live L r)
    (hv : r.value L = LuaValue.table id) (hes : TableWF (L.tables id))
    (fuel : Nat) (hfuel : (L.tables id).length < fuel) :
    (∃ ks L1 vs L2,
      keys fuel r L = Outcome.ret ks L1 ∧ values fuel r L1 = Outcome.ret vs L2 ∧
      ks.length = (L.tables id).length ∧ vs.length = (L.tables id).length ∧
      ks.map (LuaRef.value L1) = (L.tables id).map Prod.fst ∧
      ks.map (LuaRef.value L2) = (L.tables id).map Prod.fst ∧
      vs.map (LuaRef.value L2) = (L.tables id).map Prod.snd ∧
      (∀ e ∈ L.tables id, (ks.map (LuaRef.value L2)).count e.1 = 1) ∧
      (∀ (i : Nat) (k v : LuaRef), ks[i]? = some k → vs[i]? = some v →
        v.value L2 = luaH_get (L.tables id) (k.value L2)) ∧
      L1.stack = L.stack ∧ L2.stack = L.stack ∧ L2.tables = L.tables) ∧
    (KeysComparable (L.tables id) →
      ∃ m L3, LuaRef.map fuel r L = Outcome.ret m L3 ∧
        (m.map (deref2 L3)).Perm (L.tables id) ∧
        m.length = (L.tables id).length ∧
        L3.stack = L.stack ∧ L3.tables = L.tables) ∧
    ((L.tables id).Perm
        [(LuaValue.number 10, LuaValue.string "x"), (LuaValue.number 20, LuaValue.string "y")] →
      ∃ m L3, LuaRef.map fuel r L = Outcome.ret m L3 ∧
        m.map (deref2 L3) =
          [(LuaValue.number 10, LuaValue.string "x"),
            (LuaValue.number 20, LuaValue.string "y")]) := by
  refine ⟨?_, ?_, ?_⟩
  · obtain ⟨ks, L1, hkeys, hden1, wf1, E1, tab1, st1⟩ :=
      collect_foreach true L r id hwf hr hv hes fuel hfuel
    have hr1 : Live L1 r := extends_live E1 hr
    have hv1 : r.value L1 = LuaValue.table id := by
      show L1.slots r.ref_ = _
      rw [E1 _ hr.2]; exact hv
    obtain ⟨vs, L2, hvals, hden2, wf2, E2, tab2, st2⟩ :=
      collect_foreach false L1 r id wf1 hr1 hv1 (by rw [tab1]; exact hes) fuel
        (by rw [tab1]; exact hfuel)
    rw [tab1] at hden2
    have hk1 : ks.map (LuaRef.value L1) = (L.tables id).map Prod.fst := hden1.1
    have hk2 : ks.map (LuaRef.value L2) = (L.tables id).map Prod.fst :=
      (denotes_extends hden1 E2).1
    have hv2 : vs.map (LuaRef.value L2) = (L.tables id).map Prod.snd := hden2.1
    refine ⟨ks, L1, vs, L2, hkeys, hvals, ?_, ?_, hk1, hk2, hv2, ?_, ?_, st1,
      st2.trans st1, tab2.trans tab1⟩
    · have := congrArg List.length hk1
      simpa using this
    · have := congrArg List.length hv2
      simpa using this
    · intro e he
      rw [hk2]
      exact List.count_eq_one_of_mem hes.1 (List.mem_map_of_mem Prod.fst he)
    · intro i k v hki hvi
      have a1 := congrArg (fun l => l[i]?) hk2
      have a2 := congrArg (fun l => l[i]?) hv2
      simp only [List.getElem?_map, hki, hvi, Option.map_some'] at a1 a2
      cases hei : (L.tables id)[i]? with
      | none => rw [hei] at a1; simp at a1
      | some e =>
        rw [hei] at a1 a2
        simp only [Option.map_some', Option.some.injEq] at a1 a2
        rw [a1, a2]
        exact (luaH_get_of_mem _ hes.1 e (List.getElem?_mem hei)).symm
  · intro hc
    obtain ⟨m, L3, hmap, hden, wf3, E3, tab3, st3⟩ :=
      map_foreach L r id hwf hr hv hes hc fuel hfuel
    have hperm := insert_all_perm (L.tables id) hc hes.1
    refine ⟨m, L3, hmap, ?_, ?_, st3, tab3⟩
    · rw [hden.1]; exact hperm
    · have := congrArg List.length hden.1
      rw [List.length_map] at this
      rw [this]
      exact hperm.length_eq
  · intro hp
    have hc : KeysComparable (L.tables id) := by
      left
      intro e he
      have := hp.subset he
      simp only [List.mem_cons, List.mem_singleton, List.not_mem_nil, or_false] at this
      rcases this with rfl | rfl
      · exact ⟨10, rfl⟩
      · exact ⟨20, rfl⟩
    obtain ⟨m, L3, hmap, hden, -⟩ := map_foreach L r id hwf hr hv hes hc fuel hfuel
    refine ⟨m, L3, hmap, ?_⟩
    rw [hden.1]
    have h2 : L.tables id = [(LuaValue.number 10, LuaValue.string "x"),
          (LuaValue.number 20, LuaValue.string "y")] ∨
        L.tables id = [(LuaValue.number 20, LuaValue.string "y"),
          (LuaValue.number 10, LuaValue.string "x")] := by
      have hl := hp.length_eq
      match h : L.tables id, hl with
      | [a, b], _ =>
        rw [h] at hp
        have ha := hp.subset (List.mem_cons_self a _)
        have hb := hp.subset (List.mem_cons_of_mem a (List.mem_cons_self b _))
        have hnd : [a, b].Nodup := hp.nodup_iff.mpr (by decide)
        simp only [List.mem_cons, List.mem_singleton, List.not_mem_nil, or_false] at ha hb
        simp only [List.nodup_cons, List.mem_singleton, List.not_mem_nil, not_false_eq_true,
          List.nodup_nil, and_true] at hnd
        rcases ha with rfl | rfl <;> rcases hb with rfl | rfl
        · exact absurd rfl hnd
        · exact Or.inl rfl
        · exact Or.inr rfl
        · exact absurd rfl hnd
    rcases h2 with h | h <;> rw [h] <;> decide
theorem iteration_complete_witness :
    (∃ ks L1 vs L2,
      keys 3 ref_t L_tab = Outcome.ret ks L1 ∧ values 3 ref_t L1 = Outcome.ret vs L2 ∧
      ks.map (LuaRef.value L2) = [LuaValue.number 10, LuaValue.number 20] ∧
      vs.map (LuaRef.value L2) = [LuaValue.string "x", LuaValue.string "y"] ∧
      L2.stack = L_tab.stack) ∧
    (∃ m L3, LuaRef.map 3 ref_t L_tab = Outcome.ret m L3 ∧
      m.map (deref2 L3) =
        [(LuaValue.number 10, LuaValue.string "x"),
          (LuaValue.number 20, LuaValue.string "y")]) := by
  have h := iteration_complete L_tab ref_t 1 L_tab_wf ⟨by decide, by decide⟩ (by decide)
    L_tab_tableWF 3 (by decide)
  obtain ⟨⟨ks, L1, vs, L2, hk, hv, -, -, -, hk2, hv2, -, -, -, st2, -⟩, -, hm⟩ := h
  refine ⟨⟨ks, L1, vs, L2, hk, hv, ?_, ?_, st2⟩, hm ?_⟩
  · rw [hk2, L_tab_table]; rfl
  · rw [hv2, L_tab_table]; rfl
  · rw [L_tab_table]
theorem guard_depth {α : Type} (n : Nat) (o : Outcome α) :
    (ScopedSavedStack n o).depth_is n := by
  cases o <;> simp [ScopedSavedStack, Outcome.finally, Outcome.depth_is, lua_settop_length]

theorem depth_is_bind_ret {α β : Type} (o : Outcome α) (g : α → β) (n : Nat)
    (h : o.depth_is n) : (o.bind (fun a L1 => Outcome.ret (g a) L1)).depth_is n := by
  cases o <;> exact h

theorem ends_of_ret {α : Type} {o : Outcome α} {a : α} {L1 : LuaState} {n : Nat}
    (h : o = Outcome.ret a L1) (hd : L1.stack.length = n) : o.ends_at_depth n := by
  rw [h]; exact hd

theorem compare_with_depth (op : CompareOp) (a b : LuaRef) (L : LuaState) :
    (compare_with op a b L).depth_is L.stack.length := by
  unfold compare_with
  cases a.state_ with
  | null => trivial
  | main => exact guard_depth _ _

theorem getField_with_depth (pushkey : LuaState → Except Fault LuaState) (r : LuaRef)
    (L : LuaState) (hr : r.is_nilref = false) :
    (getField_with pushkey r L).depth_is L.stack.length := by
  have hm := (not_nilref_iff r).mp hr
  unfold getField_with
  rw [if_neg hm.2, hm.1]
  exact guard_depth _ _

theorem foreach_table_depth {σ : Type} (fuel : Nat)
    (f : σ → LuaRef → LuaRef → LuaState → Outcome σ) (acc : σ) (r : LuaRef) (L : LuaState)
    (hr : r.is_nilref = false) :
    (foreach_table fuel f acc r L).depth_is L.stack.length := by
  have hm := (not_nilref_iff r).mp hr
  unfold foreach_table
  rw [if_neg hm.2, hm.1]
  exact guard_depth _ _

/-- On a handle that owns a table, `getField` returns when pushing the key puts exactly
one value on the stack. -/
theorem getField_with_table (pushkey : LuaState → Except Fault LuaState) (r : LuaRef)
    (L : LuaState) (id : Nat) (hs : r.state_ = StatePtr.main) (hn : r.ref_ ≠ LUA_REFNIL)
    (hv : r.value L = LuaValue.table id) (k : LuaValue)
    (hpush : pushkey (lua_rawgeti L r.ref_) = .ok (pushvalue (lua_rawgeti L r.ref_) k)) :
    ∃ res L1, getField_with pushkey r L = Outcome.ret res L1 ∧
      L1.stack.length = L.stack.length := by
  have hv' : L.slots r.ref_ = LuaValue.table id := hv
  have hty : lua_type (lua_rawgeti L r.ref_) (-1) = LUA_TTABLE := by
    simp [lua_type, lua_rawgeti, index2value_top, hv', LuaValue.ttype]
  have hidx : index2value (pushvalue (lua_rawgeti L r.ref_) k) (-2)
      = some (LuaValue.table id) := by
    rw [lua_rawgeti, index2value_second, hv']
  unfold getField_with
  rw [if_neg hn, hs]
  simp only [hty, ne_eq, not_true_eq_false, false_and, if_false, hpush, lua_gettable,
    pushvalue_stack, hidx, Outcome.bind, ScopedSavedStack, Outcome.finally]
  exact ⟨_, _, rfl, lua_settop_length _ _⟩

/-- C1 (stack balance).  Let `r` be a non-nil `LuaRef`.  Whenever one of its read-only
operations gives control back to the host, by return or by the type-mismatch exception,
the operand stack has the depth it had before: `get<T>`, `getField` with a `LuaRef`,
C-string, `std::string` or `int` key, `type`, `typeName`, the six comparisons with any
other operand, `foreach_table` with any visitor, `keys`, `values` and `map`.  Moreover
`get<T>`, `type` and `typeName` always do give control back, so do `==` and `!=` when the
other operand has the interpreter handle, so does `getField` when `r` owns a table, and
so do `keys` and `values` (given more fuel than entries) when `r` owns a table and the
registry and the table are well formed. -/
theorem stack_balance (L : LuaState) (r : LuaRef) (hr : r.is_nilref = false) :
    (∀ (T : Type) (tag : TypeTag T), (r.get tag L).ends_at_depth L.stack.length) ∧
    (∀ key : LuaRef, (getField r key L).depth_is L.stack.length) ∧
    (∀ s : String, (getField_cstr r s L).depth_is L.stack.length ∧
      (getField_string r s L).depth_is L.stack.length) ∧
    (∀ i : Int, (getField_int r i L).depth_is L.stack.length) ∧
    (r.type L).ends_at_depth L.stack.length ∧
    (r.typeName L).ends_at_depth L.stack.length ∧
    (∀ other : LuaRef,
      (operator_eq r other L).depth_is L.stack.length ∧
      (operator_lt r other L).depth_is L.stack.length ∧
      (operator_le r other L).depth_is L.stack.length ∧
      (operator_gt r other L).depth_is L.stack.length ∧
      (operator_ge r other L).depth_is L.stack.length ∧
      (operator_ne r other L).depth_is L.stack.length) ∧
    (∀ other : LuaRef, other.state_ = StatePtr.main →
      (operator_eq r other L).ends_at_depth L.stack.length ∧
      (operator_ne r other L).ends_at_depth L.stack.length) ∧
    (∀ (σ : Type) (fuel : Nat) (f : σ → LuaRef → LuaRef → LuaState → Outcome σ) (acc : σ),
      (foreach_table fuel f acc r L).depth_is L.stack.length) ∧
    (∀ fuel : Nat, (keys fuel r L).depth_is L.stack.length ∧
      (values fuel r L).depth_is L.stack.length ∧
      (LuaRef.map fuel r L).depth_is L.stack.length) ∧
    (∀ id : Nat, r.value L = LuaValue.table id →
      (∀ key : LuaRef, key.state_ = StatePtr.main →
        (getField r key L).ends_at_depth L.stack.length) ∧
      (∀ s : String, (getField_cstr r s L).ends_at_depth L.stack.length ∧
        (getField_string r s L).ends_at_depth L.stack.length) ∧
      (∀ i : Int, (getField_int r i L).ends_at_depth L.stack.length) ∧
      (RegistryWF L → TableWF (L.tables id) → ∀ fuel : Nat, (L.tables id).length < fuel →
        (keys fuel r L).ends_at_depth L.stack.length ∧
        (values fuel r L).ends_at_depth L.stack.length ∧
        (KeysComparable (L.tables id) →
          (LuaRef.map fuel r L).ends_at_depth L.stack.length))) := by
  have hm := (not_nilref_iff r).mp hr
  refine ⟨?_, ?_, ?_, ?_, ?_, ?_, ?_, ?_, ?_, ?_, ?_⟩
  · intro T tag
    rw [get_eq tag r L]
    split
    · exact rfl
    · exact lua_settop_length _ _
  · intro key
    exact getField_with_depth _ r L hr
  · intro s
    have h : (getField_cstr r s L).depth_is L.stack.length := getField_with_depth _ r L hr
    exact ⟨h, h⟩
  · intro i
    exact getField_with_depth _ r L hr
  · rw [type_main r L hm.1]
    exact rfl
  · rw [typeName_main r L hm.1]
    exact rfl
  · intro other
    refine ⟨compare_with_depth _ _ _ _, compare_with_depth _ _ _ _, compare_with_depth _ _ _ _,
      compare_with_depth _ _ _ _, compare_with_depth _ _ _ _, ?_⟩
    exact depth_is_bind_ret _ _ _ (compare_with_depth _ _ _ _)
  · intro other ho
    constructor
    · unfold operator_eq
      rw [compare_with_main _ r other L hm.1 ho]
      exact rfl
    · unfold operator_ne operator_eq
      rw [compare_with_main _ other r L ho hm.1]
      exact rfl
  · intro σ fuel f acc
    exact foreach_table_depth fuel f acc r L hr
  · intro fuel
    exact ⟨foreach_table_depth _ _ _ r L hr, foreach_table_depth _ _ _ r L hr,
      foreach_table_depth _ _ _ r L hr⟩
  · intro id hv
    refine ⟨?_, ?_, ?_, ?_⟩
    · intro key hk
      obtain ⟨res, L1, h, hd⟩ := getField_with_table
        (fun L1 => key.push_state r.state_ L1) r L id hm.1 hm.2 hv (L.slots key.ref_)
        (by simp [push_state, LuaRef.push, hm.1, hk, lua_rawgeti])
      exact ends_of_ret h hd
    · intro s
      obtain ⟨res, L1, h, hd⟩ := getField_with_table
        (fun L1 => .ok (types.push_cstr L1 s)) r L id hm.1 hm.2 hv (LuaValue.string s) rfl
      have h2 : (getField_cstr r s L).ends_at_depth L.stack.length := ends_of_ret h hd
      exact ⟨h2, h2⟩
    · intro i
      obtain ⟨res, L1, h, hd⟩ := getField_with_table
        (fun L1 => .ok (types.push_int L1 i)) r L id hm.1 hm.2 hv (LuaValue.number i) rfl
      exact ends_of_ret h hd
    · intro hwf hes fuel hfuel
      have hlive : Live L r := ⟨hm.1, by
        have : L.slots r.ref_ = LuaValue.table id := hv
        rw [this]; simp⟩
      obtain ⟨ks, L1, hk, -, -, -, -, st1⟩ :=
        collect_foreach true L r id hwf hlive hv hes fuel hfuel
      obtain ⟨vs, L2, hvs, -, -, -, -, st2⟩ :=
        collect_foreach false L r id hwf hlive hv hes fuel hfuel
      refine ⟨ends_of_ret (o := keys fuel r L) hk (by rw [st1]),
        ends_of_ret (o := values fuel r L) hvs (by rw [st2]), ?_⟩
      intro hc
      obtain ⟨m, L3, hmp, -, -, -, -, st3⟩ := map_foreach L r id hwf hlive hv hes hc fuel hfuel
      exact ends_of_ret hmp (by rw [st3])

theorem stack_balance_witness :
    (ref_t.get types.type_tag_int L_tab).ends_at_depth L_tab.stack.length ∧
    (ref_t.type L_tab).ends_at_depth L_tab.stack.length ∧
    (getField_int ref_t 10 L_tab).ends_at_depth L_tab.stack.length ∧
    (keys 3 ref_t L_tab).ends_at_depth L_tab.stack.length ∧
    (values 3 ref_t L_tab).ends_at_depth L_tab.stack.length :=
  ⟨(stack_balance L_tab ref_t (by decide)).1 Int types.type_tag_int,
   (stack_balance L_tab ref_t (by decide)).2.2.2.2.1,
   ((stack_balance L_tab ref_t (by decide)).2.2.2.2.2.2.2.2.2.2 1 (by decide)).2.2.1 10,
   (((stack_balance L_tab ref_t (by decide)).2.2.2.2.2.2.2.2.2.2 1 (by decide)).2.2.2
      L_tab_wf L_tab_tableWF 3 (by decide)).1,
   (((stack_balance L_tab ref_t (by decide)).2.2.2.2.2.2.2.2.2.2 1 (by decide)).2.2.2
      L_tab_wf L_tab_tableWF 3 (by decide)).2.1⟩
/-- The operations that do guard against a nil handle (`ref_ == LUA_REFNIL`, or
`is_nilref()` for `get`, copy and release): on a nil `LuaRef` they leave the interpreter
untouched and end with a nil or empty result, or with the type mismatch. -/
theorem nil_ref_guarded_operations (n : LuaRef) (hn : n.ref_ = LUA_REFNIL) (L : LuaState) :
    n.type L = Outcome.ret LUA_TNIL L ∧
    (∀ (T : Type) (tag : TypeTag T), n.get tag L = Outcome.thrown L) ∧
    (∀ key : LuaRef, getField n key L = Outcome.ret mk_default L) ∧
    (∀ s : String, getField_cstr n s L = Outcome.ret mk_default L) ∧
    (∀ i : Int, getField_int n i L = Outcome.ret mk_default L) ∧
    (∀ key value : HostValue, setFieldImpl_body n key value L = Outcome.ret () L) ∧
    (∀ (σ : Type) (fuel : Nat) (f : σ → LuaRef → LuaRef → LuaState → Outcome σ) (acc : σ),
      foreach_table fuel f acc n L = Outcome.ret acc L) ∧
    (∀ fuel : Nat, keys fuel n L = Outcome.ret [] L ∧ values fuel n L = Outcome.ret [] L ∧
      LuaRef.map fuel n L = Outcome.ret [] L) ∧
    (n.copy L).1.is_nilref = true ∧ (n.copy L).2 = L ∧
    n.unref L = (n, L) ∧ n.destroy L = L := by
  have hnil : n.is_nilref = true := by simp [is_nilref, hn]
  refine ⟨by simp [LuaRef.type, hn], ?_, ?_, ?_, ?_, ?_, ?_, ?_, ?_, ?_, ?_, ?_⟩
  · intro T tag
    simp [LuaRef.get, hn]
  · intro key
    exact getField_with_inert _ n L (Or.inl hn)
  · intro s
    exact getField_with_inert _ n L (Or.inl hn)
  · intro i
    exact getField_with_inert _ n L (Or.inl hn)
  · intro key value
    exact setFieldImpl_body_inert n key value L (Or.inl hn)
  · intro σ fuel f acc
    simp [foreach_table, hn]
  · intro fuel
    simp [keys, values, LuaRef.map, foreach_table, hn]
  · rw [copy_of_nilref hnil]; simp [is_nilref]
  · rw [copy_of_nilref hnil]
  · exact unref_of_nilref hnil L
  · simp [destroy, unref_of_nilref hnil]
end Kaguya
